import Mathlib

/-! # emu8051 front-end (`emu.c`): history ring, breakpoint trigger, pacing loop, port reads

A shallow embedding of `src/emu.c`.

* Everything outside `emu.c` (the execution engine, the views, curses, the wall clock,
  `rand`) is an external collaborator.  It is a field of `Ext σ`, a function on an
  arbitrary world type `σ`; the CPU structure `emu` is part of that world and is read
  through `mPC`, `mSFR` and `mLowerData`.
* The globals of `emu.c` are the structure `Globals`; the externals do not write them.
  The port latches `p0out .. p3out`, which `emu_sfrread` writes when the engine calls it
  back from inside `tick`, are kept apart in `Ports`: the loop of `main` never reads them.
* Loops that the C code does not bound carry a fuel argument and return `none` when it
  runs out.
* A run keeps a trace of the calls crossing the boundary (`Event`) and the list of the
  snapshots its history pushes copied (`Run.recs`): these two are the only
  instrumentation added to the code.
* Arithmetic on `int` and `unsigned int` is 32-bit and wraps around (`i32`, `u32`).
-/

namespace Emu8051

/-! ## Machine integers and memory -/

/-- Value of a C `unsigned int` (32 bits) holding the mathematical integer `x`. -/
def u32 (x : Int) : Nat := (x % 4294967296).toNat

/-- Value of a C `int` (32 bits, two's complement) converted from the integer `x`. -/
def i32 (x : Int) : Int := (x + 2147483648) % 4294967296 - 2147483648

/-- A region of bytes addressed by the offset from its base pointer. -/
abbrev Mem := Int → Nat

/-- The C `memcpy (dst + off, src, n)`: the `n` bytes of `src` land at `off .. off + n - 1`. -/
def memcpy (dst : Mem) (off : Int) (src : Mem) (n : Int) : Mem :=
  fun a => if off ≤ a ∧ a < off + n then src (a - off) else dst a

/-! ## Boundary of `emu.c` -/

/-- Calls of curses made by `setSpeed`. -/
inductive CursesCall where
  | slk_set (labnum : Int) (label : String) (fmt : Int)
  | slk_refresh
  | nocbreak
  | cbreak
  | nodelay (bf : Bool)
  | halfdelay (tenths : Int)
  deriving DecidableEq, Repr

/-- Calls crossing the boundary of `emu.c` that a run records, in order.
`tick pc_before retired pc_after` is one call of the external `tick` together with the
`logicboard_tick` that always follows it: `pc_before` is `emu.mPC` read just before the
call of `tick`, `retired` is what `tick` returned and `pc_after` is `emu.mPC` once
`logicboard_tick` has returned.  `except code` is a call `emu_exception (&emu, code)`,
`clock t` a call of `getTick` that returned `t`, `sleep ms` a call `emu_sleep (ms)`. -/
inductive Event where
  | tick (pc_before : Int) (retired : Bool) (pc_after : Int)
  | except (code : Int)
  | clock (t : Int)
  | sleep (ms : Int)
  deriving DecidableEq, Repr

/-- The external collaborators of `emu.c`, as functions on a world `σ`. -/
structure Ext (σ : Type) where
  /-- reads `emu.mPC` -/
  mPC : σ → Int
  /-- the 128 bytes `emu.mSFR` points to -/
  mSFR : σ → Mem
  /-- the 128 bytes `emu.mLowerData` points to -/
  mLowerData : σ → Mem
  /-- the assignment `emu.mPC = v` -/
  set_mPC : σ → Int → σ
  /-- the engine: runs one machine cycle, true when an instruction retired -/
  tick : σ → σ × Bool
  logicboard_tick : σ → σ
  emu_exception : σ → Int → σ
  /-- the system call behind `getTick`: the new world, `tv_sec` and `tv_usec` -/
  gettimeofday : σ → σ × Int × Int
  usleep : σ → Int → σ
  /-- the popup `emu_readvalue (cpu, title, default, digits)` and the value entered -/
  emu_readvalue : σ → String → Int → Int → σ × Int
  emu_popup : σ → String → String → σ
  emu_help : σ → σ
  emu_load : σ → σ
  emu_reset : σ → σ × Bool
  /-- the key handler of the view with the given number -/
  editor_keys : Int → Int → σ → σ
  /-- the `wipe_..._view` of the view with the given number -/
  wipe_view : Int → σ → σ
  /-- the `build_..._view` of the view with the given number -/
  build_view : Int → σ → σ
  /-- the `..._update` of the view with the given number -/
  view_update : Int → σ → σ
  curses : CursesCall → σ → σ
  /-- the test `LINES != oldrows || COLS != oldcols` -/
  resized : σ → Bool
  rand : σ → σ × Int

/-- Constants of headers that are not part of `emu.c`. -/
structure Consts where
  /-- capacity of the history ring (`emulator.h`) -/
  HISTORY_LINES : Int
  /-- the value of `sizeof (int)` -/
  sizeof_int : Nat
  /-- object representation of an `int`: the byte at each offset below `sizeof_int` -/
  int_bytes : Int → Mem
  REG_P0 : Int
  REG_P1 : Int
  REG_P2 : Int
  REG_P3 : Int
  MAIN_VIEW : Int
  LOGICBOARD_VIEW : Int
  KEY_F1 : Int
  KEY_F2 : Int
  KEY_F3 : Int
  KEY_F4 : Int
  KEY_HOME : Int
  KEY_END : Int

/-- Option flags, defined outside `emu.c` and set by `getopt_long_only` in `main`; they
are taken to keep their values while a pacing block runs. -/
structure Options where
  opt_step_instruction : Int
  opt_clock_hz : Int
  opt_input_outputlow : Int

/-- The globals of `emu.c` (and `ticked`, the local of `main` that outlives a frame). -/
structure Globals where
  history : Mem
  historyline : Int
  runmode : Int
  speed : Int
  icount : Nat
  clocks : Nat
  view : Int
  breakpoint : Int
  ticked : Bool

/-- The port latches `p0out .. p3out` of `emu.c`. -/
structure Ports where
  p0out : Int
  p1out : Int
  p2out : Int
  p3out : Int
  deriving DecidableEq, Repr

/-- The initial values of the globals. -/
def init_globals (K : Consts) : Globals :=
  { history := fun _ => 0, historyline := 0, runmode := 0, speed := 6, icount := 0,
    clocks := 0, view := K.MAIN_VIEW, breakpoint := -1, ticked := true }

/-- The initial values of the port latches. -/
def init_ports : Ports := { p0out := 0, p1out := 0, p2out := 0, p3out := 0 }

/-! ## `getTick`, `emu_sleep`, `setSpeed` -/

/-- The function `getTick` (the branch without `_MSC_VER`): milliseconds, as an `int`. -/
def getTick {σ : Type} (E : Ext σ) (w : σ) : σ × Int :=
  let r := E.gettimeofday w
  (r.1, i32 (r.2.1 * 1000 + Int.tdiv r.2.2 1000))

/-- The function `emu_sleep` (the branch without `_MSC_VER`). -/
def emu_sleep {σ : Type} (E : Ext σ) (w : σ) (value : Int) : σ :=
  E.usleep w (value * 1000)

/-- The curses calls of `setSpeed (speed, runmode)`, in order. -/
def setSpeed_calls (speed runmode : Int) : List CursesCall :=
  (if speed = 7 then [CursesCall.slk_set 5 "+/-|.5Hz" 0]
   else if speed = 6 then [CursesCall.slk_set 5 "+/-|1Hz" 0]
   else if speed = 5 then [CursesCall.slk_set 5 "+/-|2Hz" 0]
   else if speed = 4 then [CursesCall.slk_set 5 "+/-|10Hz" 0]
   else if speed = 3 then [CursesCall.slk_set 5 "+/-|fast" 0]
   else if speed = 2 then [CursesCall.slk_set 5 "+/-|f+" 0]
   else if speed = 1 then [CursesCall.slk_set 5 "+/-|f++" 0]
   else if speed = 0 then [CursesCall.slk_set 5 "+/-|f*" 0]
   else []) ++
  (if runmode = 0 then
     [CursesCall.slk_set 4 "r)un" 0, CursesCall.slk_refresh, CursesCall.nocbreak,
      CursesCall.cbreak, CursesCall.nodelay false]
   else
     [CursesCall.slk_set 4 "r)unning" 0, CursesCall.slk_refresh] ++
     (if speed < 4 then [CursesCall.nocbreak, CursesCall.cbreak, CursesCall.nodelay true]
      else if speed = 7 then [CursesCall.halfdelay 20]
      else if speed = 6 then [CursesCall.halfdelay 10]
      else if speed = 5 then [CursesCall.halfdelay 5]
      else if speed = 4 then [CursesCall.halfdelay 1]
      else []))

/-- The function `setSpeed`: it only talks to curses. -/
def setSpeed {σ : Type} (E : Ext σ) (speed runmode : Int) (w : σ) : σ :=
  (setSpeed_calls speed runmode).foldl (fun w c => E.curses c w) w

/-! ## `emu_sfrread` -/

/-- The byte `aCPU->mSFR[aRegister - 0x80]`, an `unsigned char`. -/
def sfr_latch {σ : Type} (E : Ext σ) (w : σ) (aRegister : Int) : Int :=
  ((E.mSFR w (aRegister - 128) % 256 : Nat) : Int)

/-- The function `emu_sfrread`: the value returned, the port latches and the world. -/
def emu_sfrread {σ : Type} (E : Ext σ) (K : Consts) (O : Options) (view : Int)
    (p : Ports) (w : σ) (aRegister : Int) : Int × Ports × σ :=
  let outputbyte : Int := -1
  let s : Int × Ports × σ :=
    if view = K.LOGICBOARD_VIEW then
      let outputbyte := if aRegister = K.REG_P0 + 128 then p.p0out else outputbyte
      let outputbyte := if aRegister = K.REG_P1 + 128 then p.p1out else outputbyte
      let outputbyte := if aRegister = K.REG_P2 + 128 then p.p2out else outputbyte
      let outputbyte := if aRegister = K.REG_P3 + 128 then p.p3out else outputbyte
      (outputbyte, p, w)
    else
      let s : Int × Ports × σ := (outputbyte, p, w)
      let s : Int × Ports × σ :=
        if aRegister = K.REG_P0 + 128 then
          let r := E.emu_readvalue s.2.2 "P0 port read" s.2.1.p0out 2
          (r.2, { s.2.1 with p0out := r.2 }, r.1)
        else s
      let s : Int × Ports × σ :=
        if aRegister = K.REG_P1 + 128 then
          let r := E.emu_readvalue s.2.2 "P1 port read" s.2.1.p1out 2
          (r.2, { s.2.1 with p1out := r.2 }, r.1)
        else s
      let s : Int × Ports × σ :=
        if aRegister = K.REG_P2 + 128 then
          let r := E.emu_readvalue s.2.2 "P2 port read" s.2.1.p2out 2
          (r.2, { s.2.1 with p2out := r.2 }, r.1)
        else s
      let s : Int × Ports × σ :=
        if aRegister = K.REG_P3 + 128 then
          let r := E.emu_readvalue s.2.2 "P3 port read" s.2.1.p3out 2
          (r.2, { s.2.1 with p3out := r.2 }, r.1)
        else s
      s
  let outputbyte := s.1
  let p := s.2.1
  let w := s.2.2
  if outputbyte ≠ -1 then
    if O.opt_input_outputlow = 1 then
      (outputbyte, p, w)
    else if O.opt_input_outputlow = 0 then
      (Int.land outputbyte (sfr_latch E w aRegister), p, w)
    else
      let r := E.rand w
      (Int.lor (Int.land outputbyte (sfr_latch E r.1 aRegister))
          (Int.land r.2 (Int.lnot (sfr_latch E r.1 aRegister))), p, r.1)
  else
    (sfr_latch E w aRegister, p, w)

/-! ## The history ring -/

/-- The block of `main` that advances `historyline` and copies `emu.mSFR` (128 bytes),
`emu.mLowerData` (64 bytes) and `old_pc` into the slot of `history` it now names. -/
def history_push (K : Consts) (g : Globals) (sfr lower : Mem) (old_pc : Int) : Globals :=
  let historyline := Int.tmod (g.historyline + 1) K.HISTORY_LINES
  let h := memcpy g.history (historyline * (128 + 64 + (K.sizeof_int : Int))) sfr 128
  let h := memcpy h (historyline * (128 + 64 + (K.sizeof_int : Int)) + 128) lower 64
  let h := memcpy h (historyline * (128 + 64 + (K.sizeof_int : Int)) + 128 + 64)
    (K.int_bytes old_pc) (K.sizeof_int : Int)
  { g with historyline := historyline, history := h }

/-- The block of `main` run when `ticked` is set: `icount++` and the history push. -/
def retire (K : Consts) (g : Globals) (sfr lower : Mem) (old_pc : Int) : Globals :=
  history_push K { g with icount := u32 ((g.icount : Int) + 1) } sfr lower old_pc

/-- What one retirement records. -/
structure Snapshot where
  sfr : Mem
  lower : Mem
  pc : Int

/-- The globals after the retirements `snaps`, oldest first. -/
def record_all (K : Consts) (g : Globals) (snaps : List Snapshot) : Globals :=
  snaps.foldl (fun g s => retire K g s.sfr s.lower s.pc) g

/-- The byte at offset `o` of slot `line` of the history. -/
def slot (K : Consts) (h : Mem) (line : Int) (o : Int) : Nat :=
  h (line * (128 + 64 + (K.sizeof_int : Int)) + o)

/-- The byte at offset `o` of a slot that holds the snapshot `s`. -/
def entry_byte (K : Consts) (s : Snapshot) (o : Int) : Nat :=
  if o < 128 then s.sfr o else if o < 128 + 64 then s.lower (o - 128)
  else K.int_bytes s.pc (o - (128 + 64))

/-! ## The key switch of `main` -/

/-- The function `change_view`. -/
def change_view {σ : Type} (E : Ext σ) (g : Globals) (w : σ) (changeto : Int) :
    Globals × σ :=
  let w := E.wipe_view g.view w
  let g := { g with view := changeto }
  (g, E.build_view g.view w)

/-- The function `refreshview`. -/
def refreshview {σ : Type} (E : Ext σ) (g : Globals) (w : σ) : Globals × σ :=
  change_view E g w g.view

/-- The `switch (ch)` of `main`.  The labels of a C switch are pairwise distinct, so the
order of the tests is free: the character labels come first, each with its code.  The
labels `PADPLUS` and `PADMINUS`, which exist only under `__PDCURSES__`, are left out. -/
def key_switch {σ : Type} (E : Ext σ) (K : Consts) (ch : Int) (g : Globals) (w : σ) :
    Globals × σ :=
  if ch = 118 then            -- the key v
    change_view E g w (Int.tmod (g.view + 1) 4)
  else if ch = 107 then       -- the key k
    if g.breakpoint ≠ -1 then
      ({ g with breakpoint := -1 }, E.emu_popup w "Breakpoint" "Breakpoint cleared.")
    else
      let r := E.emu_readvalue w "Set Breakpoint" (E.mPC w) 4
      ({ g with breakpoint := r.2 }, r.1)
  else if ch = 103 then       -- the key g
    let r := E.emu_readvalue w "Set Program Counter" (E.mPC w) 4
    (g, E.set_mPC r.1 r.2)
  else if ch = 104 then       -- the key h
    (g, E.emu_help w)
  else if ch = 108 then       -- the key l
    (g, E.emu_load w)
  else if ch = 32 then        -- the space key
    let g := { g with runmode := 0 }
    (g, setSpeed E g.speed g.runmode w)
  else if ch = 114 then       -- the key r
    if g.runmode ≠ 0 then
      let g := { g with runmode := 0 }
      (g, setSpeed E g.speed g.runmode w)
    else
      let g := { g with runmode := 1 }
      (g, setSpeed E g.speed g.runmode w)
  else if ch = 43 then        -- the key +
    let g := { g with speed := g.speed - 1 }
    let g := if g.speed < 0 then { g with speed := 0 } else g
    (g, setSpeed E g.speed g.runmode w)
  else if ch = 45 then        -- the key -
    let g := { g with speed := g.speed + 1 }
    let g := if g.speed > 7 then { g with speed := 7 } else g
    (g, setSpeed E g.speed g.runmode w)
  else if ch = K.KEY_F1 then
    change_view E g w 0
  else if ch = K.KEY_F2 then
    change_view E g w 1
  else if ch = K.KEY_F3 then
    change_view E g w 2
  else if ch = K.KEY_F4 then
    change_view E g w 3
  else if ch = K.KEY_HOME then
    let r := E.emu_reset w
    if r.2 then ({ g with clocks := 0, ticked := true }, r.1) else (g, r.1)
  else if ch = K.KEY_END then
    ({ g with clocks := 0, ticked := true }, w)
  else
    (g, E.editor_keys g.view ch w)

/-! ## The pacing block of `main` -/

/-- The state of a run of the pacing block. -/
structure Run (σ : Type) where
  g : Globals
  w : σ
  targetclocks : Nat
  /-- the calls crossing the boundary so far -/
  tr : List Event
  /-- what the history pushes so far copied into the ring, oldest first -/
  recs : List Snapshot

/-- The deadline `targettime` and the cycle budget `targetclocks` set up at the start of
the pacing block, from the clock reading `now`.  `targettime` is an `int`: a sum past
`INT_MAX` wraps around, as it does in the compiled program. -/
def target_init (speed runmode opt_clock_hz : Int) (now : Int) : Int × Nat :=
  let targetclocks : Nat := 1
  let targettime : Int := now
  let t : Int × Nat :=
    if speed = 2 ∧ runmode ≠ 0 then
      (i32 (targettime + 1), u32 ((targetclocks : Int) + (Int.tdiv opt_clock_hz 12000 - 1)))
    else (targettime, targetclocks)
  if speed < 2 ∧ runmode ≠ 0 then
    (i32 (t.1 + 10), u32 ((t.2 : Int) + (Int.tdiv opt_clock_hz 1200 - 1)))
  else t

/-- The four statements `targetclocks--; clocks += 12; ticked = tick (&emu);
logicboard_tick (&emu);`. -/
def tick_once {σ : Type} (E : Ext σ) (s : Run σ) : Run σ :=
  let targetclocks := u32 ((s.targetclocks : Int) - 1)
  let g := { s.g with clocks := u32 ((s.g.clocks : Int) + 12) }
  let pc_before := E.mPC s.w
  let r := E.tick s.w
  let g := { g with ticked := r.2 }
  let w := E.logicboard_tick r.1
  { g := g, w := w, targetclocks := targetclocks,
    tr := s.tr ++ [Event.tick pc_before r.2 (E.mPC w)], recs := s.recs }

/-- The loop `while (!ticked) ...` of step-instruction mode, entered with `ticked = 0`. -/
def tick_until_retired {σ : Type} (E : Ext σ) : Nat → Run σ → Option (Run σ)
  | 0, _ => none
  | fuel + 1, s =>
    let s := tick_once E s
    if s.g.ticked then some s else tick_until_retired E fuel s

/-- What follows the ticks in the body of the do-while loop: the breakpoint test and the
history push. -/
def after_ticks {σ : Type} (E : Ext σ) (K : Consts) (old_pc : Int) (s : Run σ) : Run σ :=
  let s : Run σ :=
    if E.mPC s.w = s.g.breakpoint then
      { s with w := E.emu_exception s.w (-1), tr := s.tr ++ [Event.except (-1)] }
    else s
  if s.g.ticked then
    { s with g := retire K s.g (E.mSFR s.w) (E.mLowerData s.w) old_pc,
             recs := s.recs ++ [{ sfr := E.mSFR s.w, lower := E.mLowerData s.w, pc := old_pc }] }
  else s

/-- The body of the do-while loop. -/
def loop_body {σ : Type} (E : Ext σ) (K : Consts) (O : Options) (fuel : Nat) (s : Run σ) :
    Option (Run σ) :=
  let old_pc := E.mPC s.w
  if O.opt_step_instruction ≠ 0 then
    match tick_until_retired E fuel { s with g := { s.g with ticked := false } } with
    | none => none
    | some s => some (after_ticks E K old_pc s)
  else
    some (after_ticks E K old_pc (tick_once E s))

/-- The loop `do ... while (targettime > getTick () && targetclocks > 0)`. -/
def pacing_loop {σ : Type} (E : Ext σ) (K : Consts) (O : Options) (targettime : Int) :
    Nat → Run σ → Option (Run σ)
  | 0, _ => none
  | fuel + 1, s =>
    match loop_body E K O (fuel + 1) s with
    | none => none
    | some s =>
      let c := getTick E s.w
      let s := { s with w := c.1, tr := s.tr ++ [Event.clock c.2] }
      if targettime > c.2 ∧ s.targetclocks > 0 then pacing_loop E K O targettime fuel s
      else some s

/-- The loop `while (targettime > getTick ()) emu_sleep (1);`. -/
def idle_wait {σ : Type} (E : Ext σ) (targettime : Int) : Nat → Run σ → Option (Run σ)
  | 0, _ => none
  | fuel + 1, s =>
    let c := getTick E s.w
    let s := { s with w := c.1, tr := s.tr ++ [Event.clock c.2] }
    if targettime > c.2 then
      idle_wait E targettime fuel
        { s with w := emu_sleep E s.w 1, tr := s.tr ++ [Event.sleep 1] }
    else some s

/-- The block `if (ch == 32 || runmode) ...` of `main`. -/
def pacing {σ : Type} (E : Ext σ) (K : Consts) (O : Options) (fuel : Nat) (ch : Int)
    (g : Globals) (w : σ) : Option (Run σ) :=
  if ch = 32 ∨ g.runmode ≠ 0 then
    let c := getTick E w
    let t := target_init g.speed g.runmode O.opt_clock_hz c.2
    match pacing_loop E K O t.1 fuel
        { g := g, w := c.1, targetclocks := t.2, tr := [Event.clock c.2], recs := [] } with
    | none => none
    | some s => idle_wait E t.1 fuel s
  else
    some { g := g, w := w, targetclocks := 0, tr := [], recs := [] }

/-- The start of one turn of the loop of `main`, for the key `ch`: resize test and key
switch. -/
def switched {σ : Type} (E : Ext σ) (K : Consts) (ch : Int) (g : Globals) (w : σ) :
    Globals × σ :=
  let s := if E.resized w then refreshview E g w else (g, w)
  key_switch E K ch s.1 s.2

/-- One turn of the loop of `main`, for the key `ch`: resize test, key switch, pacing
block, update of the view. -/
def frame {σ : Type} (E : Ext σ) (K : Consts) (O : Options) (fuel : Nat) (ch : Int)
    (g : Globals) (w : σ) : Option (Run σ) :=
  let s := switched E K ch g w
  match pacing E K O fuel ch s.1 s.2 with
  | none => none
  | some r => some { r with w := E.view_update r.g.view r.w }

/-- The turns of the loop of `main` for the keys `keys`, in order: the globals and the
world they end in. -/
def frames {σ : Type} (E : Ext σ) (K : Consts) (O : Options) (fuel : Nat) :
    List Int → Globals → σ → Option (Globals × σ)
  | [], g, w => some (g, w)
  | ch :: rest, g, w =>
    match frame E K O fuel ch g w with
    | none => none
    | some r => frames E K O fuel rest r.g r.w

/-- The turns of the loop of `main` for the keys `keys`, in order, with the traces and the
recorded snapshots of the turns strung together. -/
def session {σ : Type} (E : Ext σ) (K : Consts) (O : Options) (fuel : Nat) :
    List Int → Run σ → Option (Run σ)
  | [], s => some s
  | ch :: rest, s =>
    match frame E K O fuel ch s.g s.w with
    | none => none
    | some r => session E K O fuel rest { r with tr := s.tr ++ r.tr, recs := s.recs ++ r.recs }

/-- The state `main` enters its loop in: the initial globals, nothing traced or recorded. -/
def session_start {σ : Type} (K : Consts) (w : σ) : Run σ :=
  { g := init_globals K, w := w, targetclocks := 0, tr := [], recs := [] }

/-- The globals and the world after the key switch of each of the keys, in order. -/
def keys_switched {σ : Type} (E : Ext σ) (K : Consts) (keys : List Int) (g : Globals)
    (w : σ) : Globals × σ :=
  keys.foldl (fun s ch => key_switch E K ch s.1 s.2) (g, w)

/-! ## Reading a trace -/

/-- The calls of `tick` in a trace. -/
def is_tick : Event → Bool
  | Event.tick _ _ _ => true
  | _ => false

/-- The calls of `tick` that retired an instruction. -/
def is_retire : Event → Bool
  | Event.tick _ r _ => r
  | _ => false

/-- The calls of `emu_exception`. -/
def is_except : Event → Bool
  | Event.except _ => true
  | _ => false

/-- What each call of `tick` in a trace returned, in order. -/
def tick_results : List Event → List Bool
  | [] => []
  | Event.tick _ r _ :: rest => r :: tick_results rest
  | _ :: rest => tick_results rest

/-- The calls of `tick` that retired an instruction and left the program counter at `X`. -/
def retire_at (X : Int) : Event → Bool
  | Event.tick _ r pc => r && decide (pc = X)
  | _ => false

/-- The calls of `tick`, retiring or not, that left the program counter at `X`. -/
def tick_at (X : Int) : Event → Bool
  | Event.tick _ _ pc => decide (pc = X)
  | _ => false

/-- The trace with its calls of `emu_exception` taken out and a call
`emu_exception (&emu, -1)` put right behind every call of `tick` that `hit` selects. -/
def with_breaks (hit : Event → Bool) : List Event → List Event
  | [] => []
  | Event.except _ :: rest => with_breaks hit rest
  | e :: rest =>
    if hit e then e :: Event.except (-1) :: with_breaks hit rest
    else e :: with_breaks hit rest

/-- The external `tick` returns false `n` times and then true, when called over and over
from the world `w`, each call followed by `logicboard_tick`. -/
def retires_after {σ : Type} (E : Ext σ) : Nat → σ → Prop
  | 0, w => (E.tick w).2 = true
  | n + 1, w => (E.tick w).2 = false ∧ retires_after E n (E.logicboard_tick (E.tick w).1)

/-- The port registers, by port number. -/
def port_reg (K : Consts) : Fin 4 → Int
  | 0 => K.REG_P0
  | 1 => K.REG_P1
  | 2 => K.REG_P2
  | 3 => K.REG_P3

/-- The port latches, by port number. -/
def port_out (p : Ports) : Fin 4 → Int
  | 0 => p.p0out
  | 1 => p.p1out
  | 2 => p.p2out
  | 3 => p.p3out

/-- The title of the popup that asks for the pins of a port. -/
def port_title : Fin 4 → String
  | 0 => "P0 port read"
  | 1 => "P1 port read"
  | 2 => "P2 port read"
  | 3 => "P3 port read"

/-- The four port registers are four different registers. -/
def ports_distinct (K : Consts) : Prop :=
  K.REG_P0 ≠ K.REG_P1 ∧ K.REG_P0 ≠ K.REG_P2 ∧ K.REG_P0 ≠ K.REG_P3 ∧
  K.REG_P1 ≠ K.REG_P2 ∧ K.REG_P1 ≠ K.REG_P3 ∧ K.REG_P2 ≠ K.REG_P3

/-- What the popup of port `i` returns outside the logic-board view: the world after the
popup and the byte the operator drives onto the pins. -/
def driven {σ : Type} (E : Ext σ) (p : Ports) (w : σ) (i : Fin 4) : σ × Int :=
  E.emu_readvalue w (port_title i) (port_out p i) 2

/-! ## A small concrete world, on which the definitions can be evaluated -/

/-- A world with a two-field engine, a clock, an operator and a random source. -/
structure Toy where
  /-- the program counter -/
  pc : Int
  /-- machine cycles left before the instruction in progress retires -/
  wait : Nat
  /-- what `wait` is set to when an instruction retires -/
  cycles : Nat
  /-- what a cycle that retires nothing adds to the program counter -/
  drift : Int
  /-- the wall clock, in milliseconds -/
  time : Int
  /-- what reading the clock adds to it -/
  pace : Int
  /-- the byte of the SFR page at offset 0; the byte at offset `a` is `latch + a` modulo
  256 -/
  latch : Nat
  /-- what the operator enters into a popup -/
  input : Int
  /-- what `rand` returns -/
  rnd : Int

/-- The engine of the toy world: an instruction retires every `cycles + 1` cycles and
moves the program counter one up. -/
def toy_tick (w : Toy) : Toy × Bool :=
  if w.wait = 0 then ({ w with pc := w.pc + 1, wait := w.cycles }, true)
  else ({ w with pc := w.pc + w.drift, wait := w.wait - 1 }, false)

/-- The collaborators of the toy world. -/
def toyExt : Ext Toy :=
  { mPC := fun w => w.pc
    mSFR := fun w a => (w.latch + a.toNat) % 256
    mLowerData := fun w a => (w.pc + a).toNat % 256
    set_mPC := fun w v => { w with pc := v }
    tick := toy_tick
    logicboard_tick := fun w => w
    emu_exception := fun w _ => w
    gettimeofday := fun w =>
      ({ w with time := w.time + w.pace }, w.time / 1000, w.time % 1000 * 1000)
    usleep := fun w us => { w with time := w.time + us / 1000 }
    emu_readvalue := fun w _ _ _ => (w, w.input)
    emu_popup := fun w _ _ => w
    emu_help := fun w => w
    emu_load := fun w => w
    emu_reset := fun w => ({ w with pc := 0, wait := 0 }, true)
    editor_keys := fun _ _ w => w
    wipe_view := fun _ w => w
    build_view := fun _ w => w
    view_update := fun _ w => w
    curses := fun _ w => w
    resized := fun _ => false
    rand := fun w => (w, w.rnd) }

/-- Constants for the toy world: a ring of three lines, four-byte little-endian `int`,
the port registers of the 8051 and key codes above the characters. -/
def toyK : Consts :=
  { HISTORY_LINES := 3
    sizeof_int := 4
    int_bytes := fun v o => ((v / 256 ^ o.toNat) % 256).toNat
    REG_P0 := 0
    REG_P1 := 16
    REG_P2 := 32
    REG_P3 := 48
    MAIN_VIEW := 0
    LOGICBOARD_VIEW := 1
    KEY_F1 := 265
    KEY_F2 := 266
    KEY_F3 := 267
    KEY_F4 := 268
    KEY_HOME := 262
    KEY_END := 360 }

/-- A toy world at rest: program counter 0, one cycle per instruction, a clock that
stands still at 5 ms. -/
def toy0 : Toy :=
  { pc := 0, wait := 0, cycles := 0, drift := 0, time := 5, pace := 0, latch := 0,
    input := 0, rnd := 0 }

/-- Option flags as `main` finds them when no option is given and the clock is 12 MHz. -/
def toyO : Options :=
  { opt_step_instruction := 0, opt_clock_hz := 12000000, opt_input_outputlow := 1 }

/-- The snapshot a retirement at program counter `pc` records in the toy world. -/
def toy_snapshot (pc : Int) : Snapshot :=
  { sfr := fun _ => 0, lower := fun a => (pc + a).toNat % 256, pc := pc }

/-- The globals a run of the pacing block only reads: `speed`, `runmode`, `breakpoint`
and `view` are the same in `g` and in `h`. -/
def same_controls (g h : Globals) : Prop :=
  h.speed = g.speed ∧ h.runmode = g.runmode ∧ h.breakpoint = g.breakpoint ∧ h.view = g.view

/-- The world after one call of `tick` and the `logicboard_tick` that follows it. -/
def tick_world {σ : Type} (E : Ext σ) (w : σ) : σ := E.logicboard_tick (E.tick w).1

/-- The event that one call of `tick` from the world `w` leaves in the trace. -/
def tick_event {σ : Type} (E : Ext σ) (w : σ) : Event :=
  Event.tick (E.mPC w) (E.tick w).2 (E.mPC (tick_world E w))

/-- The world after `n` calls of `tick` in a row. -/
def tick_worlds {σ : Type} (E : Ext σ) : Nat → σ → σ
  | 0, w => w
  | n + 1, w => tick_worlds E n (tick_world E w)

/-- The events that `n` calls of `tick` in a row leave in the trace. -/
def tick_events {σ : Type} (E : Ext σ) : Nat → σ → List Event
  | 0, _ => []
  | n + 1, w => tick_event E w :: tick_events E n (tick_world E w)

/-- The run `s` has pushed its snapshots `s.recs`, and nothing else, onto the history of
the globals `g`, one snapshot for each call of `tick` in its trace that retired an
instruction. -/
def recorded {σ : Type} (K : Consts) (g : Globals) (s : Run σ) : Prop :=
  s.g.history = (record_all K g s.recs).history ∧
  s.g.historyline = (record_all K g s.recs).historyline ∧
  s.recs.length = s.tr.countP is_retire

/-- The world at the end of a turn of the do-while loop that makes `n + 1` calls of `tick`
from the world `w` while the breakpoint is `X`. -/
def turn_world {σ : Type} (E : Ext σ) (X : Int) (n : Nat) (w : σ) : σ :=
  if E.mPC (tick_worlds E (n + 1) w) = X then E.emu_exception (tick_worlds E (n + 1) w) (-1)
  else tick_worlds E (n + 1) w

/-- The first clock reading of the turn of the key `ch`, at the start of the pacing block,
and the world after it. -/
def first_reading {σ : Type} (E : Ext σ) (K : Consts) (ch : Int) (g : Globals) (w : σ) :
    σ × Int :=
  getTick E (switched E K ch g w).2

/-- The second clock reading of the turn of the key `ch`, in the test of the do-while loop
after a first turn of `n + 1` calls of `tick`, and the world after it. -/
def second_reading {σ : Type} (E : Ext σ) (K : Consts) (ch : Int) (g : Globals) (w : σ)
    (n : Nat) : σ × Int :=
  getTick E (turn_world E (switched E K ch g w).1.breakpoint n (first_reading E K ch g w).1)

/-- The third clock reading of the turn of the key `ch`, in the test of the idle loop when
the do-while loop ended after its first turn, and the world after it. -/
def third_reading {σ : Type} (E : Ext σ) (K : Consts) (ch : Int) (g : Globals) (w : σ)
    (n : Nat) : σ × Int :=
  getTick E (second_reading E K ch g w n).1

/-- The calls of `tick` behind which the breakpoint test of `main` is made and finds the
program counter at `X`: with `opt_step_instruction` the calls that retire an instruction,
without it every call. -/
def break_hit (O : Options) (X : Int) : Event → Bool :=
  if O.opt_step_instruction ≠ 0 then retire_at X else tick_at X

/-! # Theorems -/

/-! ## Port reads -/

theorem land_byte_ff (d : Int) (h0 : 0 ≤ d) (h1 : d ≤ 255) : Int.land d 255 = d := by
  obtain ⟨n, rfl⟩ := Int.eq_ofNat_of_zero_le h0
  have hn : n < 256 := by omega
  show ((n &&& 255 : Nat) : Int) = (n : Int)
  have h : n &&& 255 = n % 2 ^ 8 := Nat.and_pow_two_sub_one_eq_mod n 8
  rw [h]
  norm_cast
  omega

theorem land_zero_right (d : Int) : Int.land d 0 = 0 := by
  cases d with
  | ofNat n => show ((n &&& 0 : Nat) : Int) = 0; simp
  | negSucc n => show ((Nat.ldiff 0 n : Nat) : Int) = 0; simp [Nat.ldiff]

/-- The whole of `emu_sfrread` on a port register in the logic-board view. -/
theorem sfrread_logicboard_raw {σ : Type} (E : Ext σ) (K : Consts) (O : Options)
    (p : Ports) (w : σ) (i : Fin 4) (hd : ports_distinct K) :
    emu_sfrread E K O K.LOGICBOARD_VIEW p w (port_reg K i + 128) =
      if port_out p i ≠ -1 then
        if O.opt_input_outputlow = 1 then (port_out p i, p, w)
        else if O.opt_input_outputlow = 0 then
          (Int.land (port_out p i) (sfr_latch E w (port_reg K i + 128)), p, w)
        else
          (Int.lor (Int.land (port_out p i) (sfr_latch E (E.rand w).1 (port_reg K i + 128)))
            (Int.land (E.rand w).2
              (Int.lnot (sfr_latch E (E.rand w).1 (port_reg K i + 128)))),
            p, (E.rand w).1)
      else (sfr_latch E w (port_reg K i + 128), p, w) := by
  obtain ⟨h01, h02, h03, h12, h13, h23⟩ := hd
  have h10 := Ne.symm h01
  have h20 := Ne.symm h02
  have h30 := Ne.symm h03
  have h21 := Ne.symm h12
  have h31 := Ne.symm h13
  have h32 := Ne.symm h23
  fin_cases i <;> simp [emu_sfrread, port_reg, port_out, *]

/-- The value `emu_sfrread` returns on a port register outside the logic-board view. -/
theorem sfrread_driven_raw {σ : Type} (E : Ext σ) (K : Consts) (O : Options) (view : Int)
    (p : Ports) (w : σ) (i : Fin 4) (hd : ports_distinct K)
    (hv : view ≠ K.LOGICBOARD_VIEW) :
    (emu_sfrread E K O view p w (port_reg K i + 128)).1 =
      if (driven E p w i).2 ≠ -1 then
        if O.opt_input_outputlow = 1 then (driven E p w i).2
        else if O.opt_input_outputlow = 0 then
          Int.land (driven E p w i).2 (sfr_latch E (driven E p w i).1 (port_reg K i + 128))
        else
          Int.lor
            (Int.land (driven E p w i).2
              (sfr_latch E (E.rand (driven E p w i).1).1 (port_reg K i + 128)))
            (Int.land (E.rand (driven E p w i).1).2
              (Int.lnot (sfr_latch E (E.rand (driven E p w i).1).1 (port_reg K i + 128))))
      else sfr_latch E (driven E p w i).1 (port_reg K i + 128) := by
  obtain ⟨h01, h02, h03, h12, h13, h23⟩ := hd
  have h10 := Ne.symm h01
  have h20 := Ne.symm h02
  have h30 := Ne.symm h03
  have h21 := Ne.symm h12
  have h31 := Ne.symm h13
  have h32 := Ne.symm h23
  fin_cases i <;> simp [emu_sfrread, driven, port_reg, port_out, port_title, *] <;>
    split_ifs <;> rfl

theorem toy_ports_distinct : ports_distinct toyK := by
  unfold ports_distinct toyK
  decide

theorem sfr_latch_port {σ : Type} (E : Ext σ) (K : Consts) (w : σ) (i : Fin 4) :
    sfr_latch E w (port_reg K i + 128) = ((E.mSFR w (port_reg K i) % 256 : Nat) : Int) := by
  unfold sfr_latch
  rw [Int.add_sub_cancel]

/-- C4, as stated, fails: in the logic-board view, with the latch of P0 holding 255, the
output-low mode and the SFR register of P0 holding 0, `emu_sfrread` returns 0. -/
theorem sfrread_logicboard_masks_latch :
    port_out { init_ports with p0out := 255 } 0 = 255 ∧
    toyExt.mSFR toy0 (port_reg toyK 0) = 0 ∧
    (emu_sfrread toyExt toyK { toyO with opt_input_outputlow := 0 } toyK.LOGICBOARD_VIEW
      { init_ports with p0out := 255 } toy0 (port_reg toyK 0 + 128)).1 = 0 := by
  decide

/-- C4, amended: in the logic-board view `emu_sfrread` opens no popup, leaves the port
latches as they are and takes the stored latch `V` (0..255) of the port for the driven
byte.  With `L` the byte `mSFR[REG_Pi]` of the port, it returns `V` in mode 1 and
`V AND L` in mode 0 (so `V` when `L` is 0xFF); in any other mode it calls `rand` once and
each of the bits 0..7 of what it returns is that bit of `V` where `L` has a 1 and that
bit of the value of `rand` where `L` has a 0. -/
theorem sfrread_logicboard_view {σ : Type} (E : Ext σ) (K : Consts) (O : Options)
    (p : Ports) (w : σ) (i : Fin 4) (hd : ports_distinct K)
    (h0 : 0 ≤ port_out p i) (h1 : port_out p i ≤ 255) :
    (O.opt_input_outputlow = 1 →
      emu_sfrread E K O K.LOGICBOARD_VIEW p w (port_reg K i + 128) = (port_out p i, p, w)) ∧
    (O.opt_input_outputlow = 0 →
      emu_sfrread E K O K.LOGICBOARD_VIEW p w (port_reg K i + 128) =
        (Int.land (port_out p i) ((E.mSFR w (port_reg K i) % 256 : Nat) : Int), p, w)) ∧
    (O.opt_input_outputlow = 0 → E.mSFR w (port_reg K i) % 256 = 255 →
      emu_sfrread E K O K.LOGICBOARD_VIEW p w (port_reg K i + 128) = (port_out p i, p, w)) ∧
    (O.opt_input_outputlow ≠ 1 → O.opt_input_outputlow ≠ 0 →
      (emu_sfrread E K O K.LOGICBOARD_VIEW p w (port_reg K i + 128)).2 = (p, (E.rand w).1) ∧
      ∀ k : Nat, k < 8 →
        Int.testBit (emu_sfrread E K O K.LOGICBOARD_VIEW p w (port_reg K i + 128)).1 k =
          if Nat.testBit (E.mSFR (E.rand w).1 (port_reg K i) % 256) k
          then Int.testBit (port_out p i) k else Int.testBit (E.rand w).2 k) := by
  have hne : port_out p i ≠ -1 := by omega
  rw [sfrread_logicboard_raw E K O p w i hd]
  simp only [sfr_latch_port]
  refine ⟨?_, ?_, ?_, ?_⟩
  · intro h; simp [hne, h]
  · intro h; simp [hne, h]
  · intro h hl; simp [hne, h, hl, land_byte_ff _ h0 h1]
  · intro h h2
    simp only [hne, h, h2, ne_eq, not_false_eq_true, if_true, if_false, true_and]
    intro k _
    rw [Int.testBit_lor, Int.testBit_land, Int.testBit_land, Int.testBit_lnot]
    have e : Int.testBit ((E.mSFR (E.rand w).1 (port_reg K i) % 256 : Nat) : Int) k =
        Nat.testBit (E.mSFR (E.rand w).1 (port_reg K i) % 256) k := rfl
    rw [e]
    cases Nat.testBit (E.mSFR (E.rand w).1 (port_reg K i) % 256) k <;> simp

theorem sfrread_logicboard_view_witness :
    emu_sfrread toyExt toyK { toyO with opt_input_outputlow := 0 } toyK.LOGICBOARD_VIEW
        { init_ports with p1out := 165 } { toy0 with latch := 239 } (port_reg toyK 1 + 128) =
      (port_out { init_ports with p1out := 165 } 1, { init_ports with p1out := 165 },
        { toy0 with latch := 239 }) :=
  (sfrread_logicboard_view toyExt toyK { toyO with opt_input_outputlow := 0 }
    { init_ports with p1out := 165 } { toy0 with latch := 239 } 1 toy_ports_distinct
    (by decide) (by decide)).2.2.1 rfl (by decide)

/-- The bits of what `emu_sfrread` returns in the output-random mode outside the
logic-board view: bit `k` is bit `k` of the driven byte where the SFR register has a 1
and bit `k` of the value of `rand` where it has a 0, for every `k`, also above bit 7. -/
theorem sfrread_random_bits {σ : Type} (E : Ext σ) (K : Consts) (O : Options) (view : Int)
    (p : Ports) (w : σ) (i : Fin 4) (hd : ports_distinct K)
    (hv : view ≠ K.LOGICBOARD_VIEW) (hm1 : O.opt_input_outputlow ≠ 1)
    (hm0 : O.opt_input_outputlow ≠ 0) (hne : (driven E p w i).2 ≠ -1) (k : Nat) :
    Int.testBit (emu_sfrread E K O view p w (port_reg K i + 128)).1 k =
      if Int.testBit (sfr_latch E (E.rand (driven E p w i).1).1 (port_reg K i + 128)) k
      then Int.testBit (driven E p w i).2 k
      else Int.testBit (E.rand (driven E p w i).1).2 k := by
  rw [sfrread_driven_raw E K O view p w i hd hv]
  simp only [hne, hm1, hm0, ne_eq, not_false_eq_true, if_true, if_false]
  rw [Int.testBit_lor, Int.testBit_land, Int.testBit_land, Int.testBit_lnot]
  cases Int.testBit (sfr_latch E (E.rand (driven E p w i).1).1 (port_reg K i + 128)) k <;>
    simp

/-- C5, the code at the failing input: outside the logic-board view, in the output-random
mode, with the driven byte 0, the SFR register of P0 holding 0xFF and `rand` returning
256, `emu_sfrread` returns 256, which is no byte. -/
theorem sfrread_random_returns_256 :
    (emu_sfrread toyExt toyK { toyO with opt_input_outputlow := 2 } toyK.MAIN_VIEW init_ports
      { toy0 with input := 0, latch := 255, rnd := 256 } (port_reg toyK 0 + 128)).1 = 256 := by
  rw [sfrread_driven_raw toyExt toyK _ toyK.MAIN_VIEW init_ports _ 0 toy_ports_distinct
    (by decide)]
  show Int.lor (Int.land 0 255) ((Nat.ldiff 256 255 : Nat) : Int) = 256
  have h : Nat.ldiff 256 255 = 256 := by simp [Nat.ldiff, Nat.bitwise]
  rw [h]
  decide

/-- C6: outside the logic-board view, in the output-low mode, a read of a port register
returns the driven byte `d`, the value the popup `emu_readvalue` hands back, AND the byte
`L = mSFR[REG_Pi]` of that port: `d` when `L` is 0xFF and 0 when `L` is 0. -/
theorem sfrread_output_low {σ : Type} (E : Ext σ) (K : Consts) (O : Options) (view : Int)
    (p : Ports) (w : σ) (i : Fin 4) (hd : ports_distinct K)
    (hv : view ≠ K.LOGICBOARD_VIEW) (hm : O.opt_input_outputlow = 0) (v : σ) (d : Int)
    (hr : E.emu_readvalue w (port_title i) (port_out p i) 2 = (v, d))
    (h0 : 0 ≤ d) (h1 : d ≤ 255) :
    (emu_sfrread E K O view p w (port_reg K i + 128)).1 =
      Int.land d ((E.mSFR v (port_reg K i) % 256 : Nat) : Int) ∧
    (E.mSFR v (port_reg K i) % 256 = 255 →
      (emu_sfrread E K O view p w (port_reg K i + 128)).1 = d) ∧
    (E.mSFR v (port_reg K i) % 256 = 0 →
      (emu_sfrread E K O view p w (port_reg K i + 128)).1 = 0) := by
  have hdr : driven E p w i = (v, d) := hr
  have hne : d ≠ -1 := by omega
  rw [sfrread_driven_raw E K O view p w i hd hv, hdr]
  simp only [hne, hm, ne_eq, not_false_eq_true, if_true, sfr_latch_port]
  refine ⟨by simp, ?_, ?_⟩
  · intro hl; simp [hl, land_byte_ff _ h0 h1]
  · intro hl; simp [hl, land_zero_right]

theorem sfrread_output_low_witness :
    (emu_sfrread toyExt toyK { toyO with opt_input_outputlow := 0 } toyK.MAIN_VIEW init_ports
        { toy0 with input := 165, latch := 239 } (port_reg toyK 1 + 128)).1 = 165 :=
  (sfrread_output_low toyExt toyK { toyO with opt_input_outputlow := 0 } toyK.MAIN_VIEW
    init_ports { toy0 with input := 165, latch := 239 } 1 toy_ports_distinct (by decide) rfl
    { toy0 with input := 165, latch := 239 } 165 rfl (by decide) (by decide)).2.1 (by decide)

/-! ## The history ring -/

theorem record_all_snoc (K : Consts) (g : Globals) (xs : List Snapshot) (x : Snapshot) :
    record_all K g (xs ++ [x]) = retire K (record_all K g xs) x.sfr x.lower x.pc := by
  simp [record_all, List.foldl_append]

theorem retire_history (K : Consts) (g : Globals) (sfr lower : Mem) (pc : Int) :
    (retire K g sfr lower pc).history = (history_push K g sfr lower pc).history := rfl

theorem retire_line (K : Consts) (g : Globals) (sfr lower : Mem) (pc : Int) :
    (retire K g sfr lower pc).historyline = (history_push K g sfr lower pc).historyline := rfl

theorem push_line (K : Consts) (g : Globals) (sfr lower : Mem) (pc : Int)
    (hN : 0 < K.HISTORY_LINES) (h0 : 0 ≤ g.historyline) :
    (history_push K g sfr lower pc).historyline = (g.historyline + 1) % K.HISTORY_LINES := by
  show Int.tmod (g.historyline + 1) K.HISTORY_LINES = _
  exact Int.tmod_eq_emod (by omega) (by omega)

theorem push_slot_same (K : Consts) (g : Globals) (s : Snapshot) (o : Int)
    (h0 : 0 ≤ o) (h1 : o < 128 + 64 + (K.sizeof_int : Int)) :
    slot K (history_push K g s.sfr s.lower s.pc).history
      (history_push K g s.sfr s.lower s.pc).historyline o = entry_byte K s o := by
  unfold slot history_push entry_byte memcpy
  simp only []
  generalize Int.tmod (g.historyline + 1) K.HISTORY_LINES * (128 + 64 + (K.sizeof_int : Int)) = base
  split_ifs <;> first | rfl | (exfalso; omega) | (congr 1; omega)

theorem push_slot_other (K : Consts) (g : Globals) (s : Snapshot) (line o : Int)
    (hl : line ≠ (history_push K g s.sfr s.lower s.pc).historyline)
    (h0 : 0 ≤ o) (h1 : o < 128 + 64 + (K.sizeof_int : Int)) :
    slot K (history_push K g s.sfr s.lower s.pc).history line o = slot K g.history line o := by
  have hs : (0 : Int) < 128 + 64 + (K.sizeof_int : Int) := by omega
  have key : line * (128 + 64 + (K.sizeof_int : Int)) + (128 + 64 + (K.sizeof_int : Int)) ≤
      (history_push K g s.sfr s.lower s.pc).historyline * (128 + 64 + (K.sizeof_int : Int)) ∨
      (history_push K g s.sfr s.lower s.pc).historyline * (128 + 64 + (K.sizeof_int : Int)) +
        (128 + 64 + (K.sizeof_int : Int)) ≤ line * (128 + 64 + (K.sizeof_int : Int)) := by
    rcases lt_or_gt_of_ne hl with h | h
    · left
      have : (line + 1) * (128 + 64 + (K.sizeof_int : Int)) ≤
          (history_push K g s.sfr s.lower s.pc).historyline * (128 + 64 + (K.sizeof_int : Int)) :=
        Int.mul_le_mul_of_nonneg_right (by omega) (by omega)
      linarith
    · right
      have : ((history_push K g s.sfr s.lower s.pc).historyline + 1) * (128 + 64 + (K.sizeof_int : Int)) ≤
          line * (128 + 64 + (K.sizeof_int : Int)) :=
        Int.mul_le_mul_of_nonneg_right (by omega) (by omega)
      linarith
  revert key
  unfold slot history_push memcpy
  simp only []
  generalize Int.tmod (g.historyline + 1) K.HISTORY_LINES * (128 + 64 + (K.sizeof_int : Int)) = base
  generalize line * (128 + 64 + (K.sizeof_int : Int)) = base2
  intro key
  split_ifs <;> first | rfl | (exfalso; omega)


theorem push_outside (K : Consts) (g : Globals) (s : Snapshot) (a : Int)
    (hN : 0 < K.HISTORY_LINES) (h0 : 0 ≤ g.historyline)
    (ha : a < 0 ∨ K.HISTORY_LINES * (128 + 64 + (K.sizeof_int : Int)) ≤ a) :
    (history_push K g s.sfr s.lower s.pc).history a = g.history a := by
  have hl := push_line K g s.sfr s.lower s.pc hN h0
  have hlo : 0 ≤ (history_push K g s.sfr s.lower s.pc).historyline := by
    rw [hl]; exact Int.emod_nonneg _ (by omega)
  have hhi : (history_push K g s.sfr s.lower s.pc).historyline < K.HISTORY_LINES := by
    rw [hl]; exact Int.emod_lt_of_pos _ hN
  have h1 : 0 ≤ (history_push K g s.sfr s.lower s.pc).historyline *
      (128 + 64 + (K.sizeof_int : Int)) := Int.mul_nonneg hlo (by omega)
  have h2 : ((history_push K g s.sfr s.lower s.pc).historyline + 1) *
      (128 + 64 + (K.sizeof_int : Int)) ≤ K.HISTORY_LINES * (128 + 64 + (K.sizeof_int : Int)) :=
    Int.mul_le_mul_of_nonneg_right (by omega) (by omega)
  have h3 : (history_push K g s.sfr s.lower s.pc).historyline *
      (128 + 64 + (K.sizeof_int : Int)) + (128 + 64 + (K.sizeof_int : Int)) ≤
      K.HISTORY_LINES * (128 + 64 + (K.sizeof_int : Int)) := by linarith
  revert h1 h3 ha
  unfold history_push memcpy
  simp only []
  generalize Int.tmod (g.historyline + 1) K.HISTORY_LINES * (128 + 64 + (K.sizeof_int : Int)) = base
  generalize K.HISTORY_LINES * (128 + 64 + (K.sizeof_int : Int)) = top
  intro ha h1 h3
  split_ifs <;> first | rfl | (exfalso; omega)

theorem record_all_line (K : Consts) (hN : 0 < K.HISTORY_LINES) (g : Globals)
    (h0 : 0 ≤ g.historyline) (h1 : g.historyline < K.HISTORY_LINES) (snaps : List Snapshot) :
    (record_all K g snaps).historyline =
      (g.historyline + (snaps.length : Int)) % K.HISTORY_LINES := by
  induction snaps using List.reverseRecOn with
  | nil => simp [record_all, Int.emod_eq_of_lt h0 h1]
  | append_singleton xs x ih =>
    rw [record_all_snoc, retire_line,
      push_line K _ _ _ _ hN (by rw [ih]; exact Int.emod_nonneg _ (by omega)),
      ih, Int.emod_add_emod]
    congr 1
    simp
    ring

theorem emod_sub_ne (c i n : Int) (hc0 : 0 ≤ c) (hc1 : c < n) (hi0 : 0 < i) (hi1 : i < n) :
    (c - i) % n ≠ c := by
  by_cases h : 0 ≤ c - i
  · rw [Int.emod_eq_of_lt h (by omega)]; omega
  · have e : (c - i) % n = (c - i + 1 * n) % n := (Int.add_mul_emod_self).symm
    rw [e, Int.emod_eq_of_lt (by omega) (by omega)]
    omega

theorem emod_shift (c i n : Int) : ((c + 1) % n - (i + 1)) % n = (c - i) % n := by
  rw [Int.sub_emod, Int.emod_emod, ← Int.sub_emod]
  congr 1
  ring

theorem record_all_slot (K : Consts) (hN : 0 < K.HISTORY_LINES) (g : Globals)
    (h0 : 0 ≤ g.historyline) (h1 : g.historyline < K.HISTORY_LINES) (snaps : List Snapshot) :
    ∀ (pre : List Snapshot) (s : Snapshot) (post : List Snapshot), snaps = pre ++ s :: post →
      (post.length : Int) < K.HISTORY_LINES →
      ∀ o : Int, 0 ≤ o → o < 128 + 64 + (K.sizeof_int : Int) →
        slot K (record_all K g snaps).history
          (((record_all K g snaps).historyline - (post.length : Int)) % K.HISTORY_LINES) o =
          entry_byte K s o := by
  induction snaps using List.reverseRecOn with
  | nil => intro pre s post h; simp at h
  | append_singleton xs x ih =>
    intro pre s post h hp o ho0 ho1
    have hcx := record_all_line K hN g h0 h1 xs
    have hx0 : 0 ≤ (record_all K g xs).historyline := by
      rw [hcx]; exact Int.emod_nonneg _ (by omega)
    have hl := push_line K (record_all K g xs) x.sfr x.lower x.pc hN hx0
    have hn0 : 0 ≤ (history_push K (record_all K g xs) x.sfr x.lower x.pc).historyline := by
      rw [hl]; exact Int.emod_nonneg _ (by omega)
    have hn1 : (history_push K (record_all K g xs) x.sfr x.lower x.pc).historyline <
        K.HISTORY_LINES := by
      rw [hl]; exact Int.emod_lt_of_pos _ hN
    rw [record_all_snoc, retire_history, retire_line]
    rcases List.eq_nil_or_concat post with hpost | ⟨post', y, hpost⟩
    · subst hpost
      have h' : xs ++ [x] = pre ++ [s] := h
      obtain ⟨-, hsx⟩ := List.append_inj' h' rfl
      have hsx' : x = s := by simpa using hsx
      subst hsx'
      simp only [List.length_nil, Int.Nat.cast_ofNat_Int, Int.sub_zero, Nat.cast_zero]
      rw [Int.emod_eq_of_lt hn0 hn1]
      exact push_slot_same K _ x o ho0 ho1
    · subst hpost
      have h' : xs ++ [x] = (pre ++ s :: post') ++ [y] := by simpa using h
      obtain ⟨hxs, hxy⟩ := List.append_inj' h' rfl
      have hxy' : x = y := by simpa using hxy
      subst hxy'
      have hlen : ((post'.concat x).length : Int) = (post'.length : Int) + 1 := by simp
      rw [hlen] at hp ⊢
      have hline : ((history_push K (record_all K g xs) x.sfr x.lower x.pc).historyline -
          ((post'.length : Int) + 1)) % K.HISTORY_LINES =
          ((record_all K g xs).historyline - (post'.length : Int)) % K.HISTORY_LINES := by
        rw [hl]; exact emod_shift _ _ _
      have hne : ((history_push K (record_all K g xs) x.sfr x.lower x.pc).historyline -
          ((post'.length : Int) + 1)) % K.HISTORY_LINES ≠
          (history_push K (record_all K g xs) x.sfr x.lower x.pc).historyline :=
        emod_sub_ne _ _ _ hn0 hn1 (by omega) hp
      rw [push_slot_other K _ x _ o hne ho0 ho1, hline]
      exact ih pre s post' hxs (by omega) o ho0 ho1

theorem record_all_outside (K : Consts) (hN : 0 < K.HISTORY_LINES) (g : Globals)
    (h0 : 0 ≤ g.historyline) (h1 : g.historyline < K.HISTORY_LINES) (snaps : List Snapshot)
    (a : Int) (ha : a < 0 ∨ K.HISTORY_LINES * (128 + 64 + (K.sizeof_int : Int)) ≤ a) :
    (record_all K g snaps).history a = g.history a := by
  induction snaps using List.reverseRecOn with
  | nil => rfl
  | append_singleton xs x ih =>
    have hcx := record_all_line K hN g h0 h1 xs
    have hx0 : 0 ≤ (record_all K g xs).historyline := by
      rw [hcx]; exact Int.emod_nonneg _ (by omega)
    rw [record_all_snoc, retire_history, push_outside K _ x a hN hx0 ha, ih]

theorem split_from_end {α : Type} (l : List α) (i : Nat) (h : i < l.length) :
    ∃ pre s post, l = pre ++ s :: post ∧ post.length = i := by
  have hn : l.length - 1 - i < l.length := by omega
  refine ⟨l.take (l.length - 1 - i), l[l.length - 1 - i], l.drop (l.length - 1 - i + 1), ?_, ?_⟩
  · rw [← List.drop_eq_getElem_cons hn, List.take_append_drop]
  · simp; omega

/-- The ring after the retirement block has run for each of the snapshots `snaps`, from
the initial globals. -/
theorem record_all_ring (K : Consts) (hN : 0 < K.HISTORY_LINES) (snaps : List Snapshot) :
    (record_all K (init_globals K) snaps).historyline =
      (snaps.length : Int) % K.HISTORY_LINES ∧
    0 ≤ (record_all K (init_globals K) snaps).historyline ∧
    (record_all K (init_globals K) snaps).historyline < K.HISTORY_LINES ∧
    (∀ (pre : List Snapshot) (s : Snapshot) (post : List Snapshot),
      snaps = pre ++ s :: post → (post.length : Int) < K.HISTORY_LINES →
      ∀ o : Int, 0 ≤ o → o < 128 + 64 + (K.sizeof_int : Int) →
        slot K (record_all K (init_globals K) snaps).history
          (((record_all K (init_globals K) snaps).historyline - (post.length : Int)) %
            K.HISTORY_LINES) o = entry_byte K s o) ∧
    (K.HISTORY_LINES ≤ (snaps.length : Int) → ∀ line : Int, 0 ≤ line →
      line < K.HISTORY_LINES →
      ∃ (pre : List Snapshot) (s : Snapshot) (post : List Snapshot),
        snaps = pre ++ s :: post ∧ (post.length : Int) < K.HISTORY_LINES ∧
        line = ((record_all K (init_globals K) snaps).historyline - (post.length : Int)) %
          K.HISTORY_LINES) ∧
    (∀ a : Int, a < 0 ∨ K.HISTORY_LINES * (128 + 64 + (K.sizeof_int : Int)) ≤ a →
      (record_all K (init_globals K) snaps).history a = 0) := by
  have hi0 : 0 ≤ (init_globals K).historyline := le_refl _
  have hi1 : (init_globals K).historyline < K.HISTORY_LINES := hN
  have hc := record_all_line K hN (init_globals K) hi0 hi1 snaps
  have hc' : (record_all K (init_globals K) snaps).historyline =
      (snaps.length : Int) % K.HISTORY_LINES := by
    rw [hc]; show (0 + (snaps.length : Int)) % _ = _; rw [Int.zero_add]
  refine ⟨hc', ?_, ?_, record_all_slot K hN _ hi0 hi1 snaps, ?_, ?_⟩
  · rw [hc']; exact Int.emod_nonneg _ (by omega)
  · rw [hc']; exact Int.emod_lt_of_pos _ hN
  · intro hk line hl0 hl1
    generalize hcd : (record_all K (init_globals K) snaps).historyline = c
    have hi0' : 0 ≤ (c - line) % K.HISTORY_LINES := Int.emod_nonneg _ (by omega)
    have hi1' : (c - line) % K.HISTORY_LINES < K.HISTORY_LINES := Int.emod_lt_of_pos _ hN
    obtain ⟨pre, s, post, hsplit, hlen⟩ :=
      split_from_end snaps ((c - line) % K.HISTORY_LINES).toNat (by omega)
    refine ⟨pre, s, post, hsplit, by omega, ?_⟩
    have hpl : (post.length : Int) = (c - line) % K.HISTORY_LINES := by omega
    rw [hpl, Int.sub_emod, Int.emod_emod, ← Int.sub_emod]
    have e : c - (c - line) = line := by ring
    rw [e, Int.emod_eq_of_lt hl0 hl1]
  · intro a ha
    rw [record_all_outside K hN _ hi0 hi1 snaps a ha]
    rfl

/-! ## Traces -/

theorem tick_results_append (a b : List Event) :
    tick_results (a ++ b) = tick_results a ++ tick_results b := by
  induction a with
  | nil => rfl
  | cons e rest ih => cases e <;> simp [tick_results, ih]

theorem with_breaks_append (hit : Event → Bool) (a b : List Event) :
    with_breaks hit (a ++ b) = with_breaks hit a ++ with_breaks hit b := by
  induction a with
  | nil => rfl
  | cons e rest ih =>
    cases e <;> simp only [with_breaks, List.cons_append] <;> (try split_ifs) <;> simp [ih]

/-! ## The pacing block leaves the operator settings alone -/

theorem same_controls_refl (g : Globals) : same_controls g g := ⟨rfl, rfl, rfl, rfl⟩

theorem same_controls_trans {g h k : Globals} (a : same_controls g h) (b : same_controls h k) :
    same_controls g k :=
  ⟨b.1.trans a.1, b.2.1.trans a.2.1, b.2.2.1.trans a.2.2.1, b.2.2.2.trans a.2.2.2⟩

theorem tick_once_controls {σ : Type} (E : Ext σ) (s : Run σ) :
    same_controls s.g (tick_once E s).g := ⟨rfl, rfl, rfl, rfl⟩

theorem tick_until_retired_controls {σ : Type} (E : Ext σ) :
    ∀ (fuel : Nat) (s r : Run σ), tick_until_retired E fuel s = some r →
      same_controls s.g r.g := by
  intro fuel
  induction fuel with
  | zero => intro s r h; simp [tick_until_retired] at h
  | succ n ih =>
    intro s r h
    simp only [tick_until_retired] at h
    split_ifs at h with ht
    · cases h
      exact tick_once_controls E s
    · exact same_controls_trans (tick_once_controls E s) (ih _ _ h)

theorem after_ticks_controls {σ : Type} (E : Ext σ) (K : Consts) (old_pc : Int) (s : Run σ) :
    same_controls s.g (after_ticks E K old_pc s).g := by
  unfold after_ticks
  simp only []
  split_ifs <;> exact ⟨rfl, rfl, rfl, rfl⟩

theorem loop_body_controls {σ : Type} (E : Ext σ) (K : Consts) (O : Options) (fuel : Nat)
    (s r : Run σ) (h : loop_body E K O fuel s = some r) : same_controls s.g r.g := by
  unfold loop_body at h
  simp only [] at h
  split_ifs at h with hs
  · split at h
    · cases h
    · rename_i s1 h1
      cases h
      have h2 := tick_until_retired_controls E _ _ _ h1
      exact same_controls_trans h2 (after_ticks_controls E K _ s1)
  · cases h
    exact same_controls_trans (tick_once_controls E s) (after_ticks_controls E K _ _)

theorem pacing_loop_controls {σ : Type} (E : Ext σ) (K : Consts) (O : Options)
    (targettime : Int) :
    ∀ (fuel : Nat) (s r : Run σ), pacing_loop E K O targettime fuel s = some r →
      same_controls s.g r.g := by
  intro fuel
  induction fuel with
  | zero => intro s r h; simp [pacing_loop] at h
  | succ n ih =>
    intro s r h
    simp only [pacing_loop] at h
    split at h
    · cases h
    · rename_i s1 h1
      have hb := loop_body_controls E K O _ s s1 h1
      split_ifs at h with hc
      · have h2 := ih _ _ h
        exact same_controls_trans hb h2
      · cases h
        exact hb

theorem idle_wait_controls {σ : Type} (E : Ext σ) (targettime : Int) :
    ∀ (fuel : Nat) (s r : Run σ), idle_wait E targettime fuel s = some r →
      r.g = s.g ∧ tick_results r.tr = tick_results s.tr ∧
      r.tr.countP is_tick = s.tr.countP is_tick ∧
      r.tr.countP is_except = s.tr.countP is_except := by
  intro fuel
  induction fuel with
  | zero => intro s r h; simp [idle_wait] at h
  | succ n ih =>
    intro s r h
    simp only [idle_wait] at h
    split_ifs at h with hc
    · obtain ⟨h1, h2, h3, h4⟩ := ih _ _ h
      refine ⟨h1, ?_, ?_, ?_⟩
      · rw [h2]; simp [tick_results_append, tick_results]
      · rw [h3]; simp [List.countP_append, is_tick]
      · rw [h4]; simp [List.countP_append, is_except]
    · cases h
      refine ⟨rfl, ?_, ?_, ?_⟩
      · simp [tick_results_append, tick_results]
      · simp [List.countP_append, is_tick]
      · simp [List.countP_append, is_except]

theorem pacing_controls {σ : Type} (E : Ext σ) (K : Consts) (O : Options) (fuel : Nat)
    (ch : Int) (g : Globals) (w : σ) (r : Run σ) (h : pacing E K O fuel ch g w = some r) :
    same_controls g r.g := by
  unfold pacing at h
  simp only [] at h
  split_ifs at h with hc
  · split at h
    · cases h
    · rename_i s1 h1
      have := (idle_wait_controls E _ _ _ _ h).1
      rw [this]
      exact pacing_loop_controls E K O _ _ _ _ h1
  · cases h
    exact same_controls_refl g

theorem frame_controls {σ : Type} (E : Ext σ) (K : Consts) (O : Options) (fuel : Nat)
    (ch : Int) (g : Globals) (w : σ) (r : Run σ) (h : frame E K O fuel ch g w = some r) :
    same_controls (switched E K ch g w).1 r.g := by
  unfold frame at h
  simp only [] at h
  split at h
  · cases h
  · rename_i s1 h1
    cases h
    exact pacing_controls E K O fuel ch _ _ s1 h1

/-! ## The cycle budget and the speed -/

theorem change_view_speed {σ : Type} (E : Ext σ) (g : Globals) (w : σ) (v : Int) :
    (change_view E g w v).1.speed = g.speed ∧ (change_view E g w v).1.runmode = g.runmode :=
  ⟨rfl, rfl⟩

theorem ite_speed {σ : Type} (c : Prop) [Decidable c] (a b : Globals × σ) (x : Int)
    (ha : a.1.speed = x) (hb : b.1.speed = x) : (if c then a else b).1.speed = x := by
  split_ifs <;> assumption

theorem key_switch_other_speed {σ : Type} (E : Ext σ) (K : Consts) (ch : Int) (g : Globals)
    (w : σ) (h1 : ch ≠ 43) (h2 : ch ≠ 45) : (key_switch E K ch g w).1.speed = g.speed := by
  unfold key_switch
  rw [if_neg h1, if_neg h2]
  repeat' (first | rfl | apply ite_speed)

theorem key_switch_speed_congr {σ : Type} (E : Ext σ) (K : Consts) (ch : Int)
    (g h : Globals) (w v : σ) (e : g.speed = h.speed) :
    (key_switch E K ch g w).1.speed = (key_switch E K ch h v).1.speed := by
  by_cases h1 : ch = 43
  · subst h1
    simp [key_switch, e]
    split_ifs <;> rfl
  · by_cases h2 : ch = 45
    · subst h2
      simp [key_switch, e]
      split_ifs <;> rfl
    · rw [key_switch_other_speed E K ch g w h1 h2, key_switch_other_speed E K ch h v h1 h2, e]

theorem key_switch_speed_range {σ : Type} (E : Ext σ) (K : Consts) (ch : Int) (g : Globals)
    (w : σ) (h0 : 0 ≤ g.speed) (h7 : g.speed ≤ 7) :
    0 ≤ (key_switch E K ch g w).1.speed ∧ (key_switch E K ch g w).1.speed ≤ 7 := by
  by_cases h1 : ch = 43
  · subst h1
    simp [key_switch]
    split_ifs <;> constructor <;> simp <;> omega
  · by_cases h2 : ch = 45
    · subst h2
      simp [key_switch]
      split_ifs <;> constructor <;> simp <;> omega
    · rw [key_switch_other_speed E K ch g w h1 h2]
      exact ⟨h0, h7⟩

theorem switched_speed {σ : Type} (E : Ext σ) (K : Consts) (ch : Int) (g : Globals) (w : σ) :
    (switched E K ch g w).1.speed = (key_switch E K ch g w).1.speed := by
  unfold switched
  simp only []
  apply key_switch_speed_congr
  split_ifs <;> rfl

theorem keys_switched_range {σ : Type} (E : Ext σ) (K : Consts) (keys : List Int) :
    ∀ (g : Globals) (w : σ), 0 ≤ g.speed → g.speed ≤ 7 →
      0 ≤ (keys_switched E K keys g w).1.speed ∧ (keys_switched E K keys g w).1.speed ≤ 7 := by
  induction keys with
  | nil => intro g w h0 h7; exact ⟨h0, h7⟩
  | cons ch rest ih =>
    intro g w h0 h7
    have h := key_switch_speed_range E K ch g w h0 h7
    exact ih (key_switch E K ch g w).1 (key_switch E K ch g w).2 h.1 h.2

theorem frame_speed {σ : Type} (E : Ext σ) (K : Consts) (O : Options) (fuel : Nat) (ch : Int)
    (g : Globals) (w : σ) (r : Run σ) (h : frame E K O fuel ch g w = some r) :
    r.g.speed = (key_switch E K ch g w).1.speed := by
  rw [← switched_speed]
  exact (frame_controls E K O fuel ch g w r h).1

theorem frames_range {σ : Type} (E : Ext σ) (K : Consts) (O : Options) (fuel : Nat)
    (keys : List Int) :
    ∀ (g : Globals) (w : σ) (g' : Globals) (w' : σ), 0 ≤ g.speed → g.speed ≤ 7 →
      frames E K O fuel keys g w = some (g', w') → 0 ≤ g'.speed ∧ g'.speed ≤ 7 := by
  induction keys with
  | nil =>
    intro g w g' w' h0 h7 h
    simp only [frames, Option.some.injEq, Prod.mk.injEq] at h
    rw [← h.1]
    exact ⟨h0, h7⟩
  | cons ch rest ih =>
    intro g w g' w' h0 h7 h
    simp only [frames] at h
    split at h
    · cases h
    · rename_i r hr
      have hs := frame_speed E K O fuel ch g w r hr
      have hk := key_switch_speed_range E K ch g w h0 h7
      exact ih r.g r.w g' w' (by rw [hs]; exact hk.1) (by rw [hs]; exact hk.2) h

/-- C10: the speed stays in `[0, 7]`.  From the initial speed 6 it is in `[0, 7]` after
the key switch of any sequence of keys and after any sequence of whole turns of the loop
of `main`; the key `+` (43) leaves speed 0 at 0 and otherwise takes one off, the key `-`
(45) leaves speed 7 at 7 and otherwise adds one; no other key changes the speed in the
key switch, and the rest of a turn leaves the speed the key switch set. -/
theorem speed_invariant {σ : Type} (E : Ext σ) (K : Consts) (O : Options) :
    (∀ (keys : List Int) (w : σ),
      0 ≤ (keys_switched E K keys (init_globals K) w).1.speed ∧
      (keys_switched E K keys (init_globals K) w).1.speed ≤ 7) ∧
    (∀ (fuel : Nat) (keys : List Int) (w : σ) (g' : Globals) (w' : σ),
      frames E K O fuel keys (init_globals K) w = some (g', w') →
      0 ≤ g'.speed ∧ g'.speed ≤ 7) ∧
    (∀ (g : Globals) (w : σ), g.speed = 0 → (key_switch E K 43 g w).1.speed = 0) ∧
    (∀ (g : Globals) (w : σ), g.speed = 7 → (key_switch E K 45 g w).1.speed = 7) ∧
    (∀ (g : Globals) (w : σ), 0 < g.speed → (key_switch E K 43 g w).1.speed = g.speed - 1) ∧
    (∀ (g : Globals) (w : σ), g.speed < 7 → (key_switch E K 45 g w).1.speed = g.speed + 1) ∧
    (∀ (ch : Int) (g : Globals) (w : σ), ch ≠ 43 → ch ≠ 45 →
      (key_switch E K ch g w).1.speed = g.speed) ∧
    (∀ (fuel : Nat) (ch : Int) (g : Globals) (w : σ) (r : Run σ),
      frame E K O fuel ch g w = some r → r.g.speed = (key_switch E K ch g w).1.speed) := by
  refine ⟨?_, ?_, ?_, ?_, ?_, ?_, ?_, ?_⟩
  · intro keys w
    exact keys_switched_range E K keys (init_globals K) w (by show (0 : Int) ≤ 6; decide)
      (by show (6 : Int) ≤ 7; decide)
  · intro fuel keys w g' w' h
    exact frames_range E K O fuel keys (init_globals K) w g' w'
      (by show (0 : Int) ≤ 6; decide) (by show (6 : Int) ≤ 7; decide) h
  · intro g w h
    simp [key_switch, h]
  · intro g w h
    simp [key_switch, h]
  · intro g w h
    simp [key_switch]
    split_ifs with hc
    · omega
    · rfl
  · intro g w h
    simp [key_switch]
    split_ifs with hc
    · omega
    · rfl
  · intro ch g w h1 h2
    exact key_switch_other_speed E K ch g w h1 h2
  · intro fuel ch g w r h
    exact frame_speed E K O fuel ch g w r h

/-- C9: the cycle budget set up at the start of the pacing block.  For a clock
`opt_clock_hz > 0` (an `int`) and a clock reading `now` (an `int`) the budget is
`opt_clock_hz / 1200` and the deadline `now + 10` when running at speed 0 or 1,
`opt_clock_hz / 12000` and `now + 1` when running at speed 2, and 1 cycle and `now` when
the run mode is off or the speed is 3..7, the deadline being an `int` sum, equal to the
exact sum whenever that is at most `INT_MAX`; the budget is 1000 for 1.2 MHz, speed 0,
run mode on; the budget does not depend on the clock reading and the deadline is the
reading plus an offset of 0, 1 or 10 ms set by speed and run mode alone; and pressing
`r` (114) twice leaves the speed, the budget and the deadline as they were. -/
theorem target_budget (hz now : Int) (h0 : 0 < hz) (h1 : hz < 2147483648)
    (n0 : -2147483648 ≤ now) (n1 : now < 2147483648) :
    (∀ speed runmode : Int, runmode ≠ 0 → speed = 0 ∨ speed = 1 →
      target_init speed runmode hz now = (i32 (now + 10), (hz / 1200).toNat)) ∧
    (∀ runmode : Int, runmode ≠ 0 →
      target_init 2 runmode hz now = (i32 (now + 1), (hz / 12000).toNat)) ∧
    (∀ speed runmode : Int, runmode = 0 ∨ (3 ≤ speed ∧ speed ≤ 7) →
      target_init speed runmode hz now = (now, 1)) ∧
    (now + 10 < 2147483648 → i32 (now + 10) = now + 10 ∧ i32 (now + 1) = now + 1) ∧
    target_init 0 1 1200000 now = (i32 (now + 10), 1000) ∧
    (∀ speed runmode later : Int, -2147483648 ≤ later → later < 2147483648 →
      (target_init speed runmode hz later).2 = (target_init speed runmode hz now).2 ∧
      (target_init speed runmode hz later).1 =
        i32 (later + (target_init speed runmode hz 0).1) ∧
      (target_init speed runmode hz now).1 =
        i32 (now + (target_init speed runmode hz 0).1) ∧
      ((target_init speed runmode hz 0).1 = 0 ∨ (target_init speed runmode hz 0).1 = 1 ∨
        (target_init speed runmode hz 0).1 = 10)) ∧
    (∀ (σ : Type) (E : Ext σ) (K : Consts) (g : Globals) (w : σ),
      (key_switch E K 114 (key_switch E K 114 g w).1 (key_switch E K 114 g w).2).1.speed =
        g.speed ∧
      target_init
        (key_switch E K 114 (key_switch E K 114 g w).1 (key_switch E K 114 g w).2).1.speed
        (key_switch E K 114 (key_switch E K 114 g w).1 (key_switch E K 114 g w).2).1.runmode
        hz now = target_init g.speed g.runmode hz now) := by
  have e1 : Int.tdiv hz 1200 = hz / 1200 := Int.tdiv_eq_ediv (by omega) (by omega)
  have e2 : Int.tdiv hz 12000 = hz / 12000 := Int.tdiv_eq_ediv (by omega) (by omega)
  refine ⟨?_, ?_, ?_, ?_, ?_, ?_, ?_⟩
  · intro speed runmode hr hs
    have hs2 : speed ≠ 2 := by omega
    have hs3 : speed < 2 := by omega
    simp only [target_init, hs2, hs3, hr, ne_eq, not_false_eq_true, and_true, false_and,
      if_false, if_true, true_and, e1]
    congr 1
    unfold u32
    omega
  · intro runmode hr
    simp only [target_init, hr, ne_eq, not_false_eq_true, and_true, if_true, e2]
    rw [if_neg (by omega)]
    simp only [Prod.mk.injEq, true_and]
    unfold u32
    omega
  · intro speed runmode h
    rcases h with h | h
    · simp [target_init, h]
    · have hs2 : speed ≠ 2 := by omega
      have hs3 : ¬ speed < 2 := by omega
      simp [target_init, hs2, hs3]
  · intro h
    unfold i32
    omega
  · have e : u32 (Int.tdiv 1200000 1200) = 1000 := by decide
    simp [target_init, e]
  · intro speed runmode later l0 l1
    unfold target_init i32
    simp only []
    split_ifs <;> refine ⟨?_, ?_, ?_, ?_⟩ <;> first | rfl | (dsimp only; omega)
  · intro σ E K g w
    by_cases hr : g.runmode = 0
    · simp [key_switch, hr, target_init]
    · simp [key_switch, hr, target_init]

theorem target_budget_witness :
    target_init 0 1 12000000 5 = (i32 (5 + 10), ((12000000 : Int) / 1200).toNat) :=
  (target_budget 12000000 5 (by decide) (by decide) (by decide) (by decide)).1 0 1
    (by decide) (Or.inl rfl)

/-! ## The ticks of one turn of the do-while loop -/

theorem tick_until_retired_of_retires {σ : Type} (E : Ext σ) :
    ∀ (n fuel : Nat) (s : Run σ), retires_after E n s.w → n < fuel →
      tick_until_retired E fuel s = some (Nat.iterate (tick_once E) (n + 1) s) := by
  intro n
  induction n with
  | zero =>
    intro fuel s h hf
    obtain ⟨f, rfl⟩ : ∃ f, fuel = f + 1 := ⟨fuel - 1, by omega⟩
    have ht : (tick_once E s).g.ticked = true := h
    simp [tick_until_retired, ht]
  | succ n ih =>
    intro fuel s h hf
    obtain ⟨f, rfl⟩ : ∃ f, fuel = f + 1 := ⟨fuel - 1, by omega⟩
    have ht : (tick_once E s).g.ticked = false := h.1
    have h2 : retires_after E n (tick_once E s).w := h.2
    simp only [tick_until_retired, ht, Bool.false_eq_true, if_false]
    rw [ih f (tick_once E s) h2 (by omega)]
    rfl

theorem tick_until_retired_some {σ : Type} (E : Ext σ) :
    ∀ (fuel : Nat) (s r : Run σ), tick_until_retired E fuel s = some r →
      ∃ n, n < fuel ∧ retires_after E n s.w := by
  intro fuel
  induction fuel with
  | zero => intro s r h; simp [tick_until_retired] at h
  | succ f ih =>
    intro s r h
    simp only [tick_until_retired] at h
    split_ifs at h with ht
    · exact ⟨0, by omega, ht⟩
    · obtain ⟨n, hn, hr⟩ := ih _ _ h
      have hf : (E.tick s.w).2 = false := by
        have : (tick_once E s).g.ticked = (E.tick s.w).2 := rfl
        rw [← this]
        simpa using ht
      exact ⟨n + 1, by omega, hf, hr⟩

theorem iterate_tick_tr {σ : Type} (E : Ext σ) :
    ∀ (k : Nat) (s : Run σ),
      (Nat.iterate (tick_once E) k s).tr = s.tr ++ tick_events E k s.w ∧
      (Nat.iterate (tick_once E) k s).w = tick_worlds E k s.w ∧
      same_controls s.g (Nat.iterate (tick_once E) k s).g ∧
      (Nat.iterate (tick_once E) k s).g.history = s.g.history ∧
      (Nat.iterate (tick_once E) k s).g.historyline = s.g.historyline ∧
      (Nat.iterate (tick_once E) k s).g.icount = s.g.icount ∧
      (Nat.iterate (tick_once E) k s).recs = s.recs := by
  intro k
  induction k with
  | zero =>
    intro s
    exact ⟨by simp [tick_events], rfl, same_controls_refl _, rfl, rfl, rfl, rfl⟩
  | succ k ih =>
    intro s
    obtain ⟨h1, h2, h3, h4, h5, h6, h7⟩ := ih (tick_once E s)
    refine ⟨?_, ?_, ?_, ?_, ?_, ?_, h7⟩
    · show (Nat.iterate (tick_once E) k (tick_once E s)).tr = _
      rw [h1]
      show s.tr ++ [tick_event E s.w] ++ tick_events E k (tick_world E s.w) = _
      simp [tick_events]
    · exact h2
    · exact same_controls_trans (tick_once_controls E s) h3
    · exact h4
    · exact h5
    · exact h6

theorem iterate_tick_clocks {σ : Type} (E : Ext σ) :
    ∀ (n : Nat) (s : Run σ),
      (Nat.iterate (tick_once E) (n + 1) s).targetclocks =
        u32 ((s.targetclocks : Int) - ((n : Int) + 1)) ∧
      (Nat.iterate (tick_once E) (n + 1) s).g.ticked = (E.tick (tick_worlds E n s.w)).2 := by
  intro n
  induction n with
  | zero => intro s; exact ⟨by simp [tick_once], rfl⟩
  | succ n ih =>
    intro s
    obtain ⟨h1, h2⟩ := ih (tick_once E s)
    refine ⟨?_, h2⟩
    show (Nat.iterate (tick_once E) (n + 1) (tick_once E s)).targetclocks = _
    rw [h1]
    show u32 (((u32 ((s.targetclocks : Int) - 1) : Nat) : Int) - ((n : Int) + 1)) = _
    unfold u32
    push_cast
    omega

theorem retires_after_last {σ : Type} (E : Ext σ) :
    ∀ (n : Nat) (w : σ), retires_after E n w → (E.tick (tick_worlds E n w)).2 = true := by
  intro n
  induction n with
  | zero => intro w h; exact h
  | succ n ih => intro w h; exact ih _ h.2

theorem retires_after_results {σ : Type} (E : Ext σ) :
    ∀ (n : Nat) (w : σ), retires_after E n w →
      tick_results (tick_events E (n + 1) w) = List.replicate n false ++ [true] := by
  intro n
  induction n with
  | zero =>
    intro w h
    have h' : (E.tick w).2 = true := h
    simp [tick_events, tick_event, tick_results, h']
  | succ n ih =>
    intro w h
    have h1 : (E.tick w).2 = false := h.1
    have h2 : tick_results (tick_events E (n + 1) (tick_world E w)) =
        List.replicate n false ++ [true] := ih _ h.2
    show tick_results (Event.tick (E.mPC w) (E.tick w).2 (E.mPC (tick_world E w)) ::
      tick_events E (n + 1) (tick_world E w)) = _
    rw [tick_results, h1, h2]
    rfl

theorem after_ticks_tr {σ : Type} (E : Ext σ) (K : Consts) (old_pc : Int) (s : Run σ) :
    (after_ticks E K old_pc s).tr =
      s.tr ++ (if E.mPC s.w = s.g.breakpoint then [Event.except (-1)] else []) ∧
    (after_ticks E K old_pc s).targetclocks = s.targetclocks ∧
    (after_ticks E K old_pc s).g.ticked = s.g.ticked := by
  unfold after_ticks
  simp only []
  split_ifs <;> simp [retire, history_push]

theorem after_ticks_world {σ : Type} (E : Ext σ) (K : Consts) (old_pc : Int) (s : Run σ) :
    (after_ticks E K old_pc s).w =
      if E.mPC s.w = s.g.breakpoint then E.emu_exception s.w (-1) else s.w := by
  unfold after_ticks
  simp only []
  split_ifs <;> rfl

theorem loop_body_plain {σ : Type} (E : Ext σ) (K : Consts) (O : Options) (fuel : Nat)
    (s : Run σ) (hO : O.opt_step_instruction = 0) :
    loop_body E K O fuel s = some (after_ticks E K (E.mPC s.w) (tick_once E s)) := by
  simp [loop_body, hO]

theorem loop_body_step {σ : Type} (E : Ext σ) (K : Consts) (O : Options) (fuel : Nat)
    (s : Run σ) (hO : O.opt_step_instruction ≠ 0) (n : Nat) (hr : retires_after E n s.w)
    (hf : n < fuel) :
    loop_body E K O fuel s = some (after_ticks E K (E.mPC s.w)
      (Nat.iterate (tick_once E) (n + 1) { s with g := { s.g with ticked := false } })) := by
  have h := tick_until_retired_of_retires E n fuel
    { s with g := { s.g with ticked := false } } hr hf
  simp only [loop_body, hO, ne_eq, not_false_eq_true, if_true, h]

theorem loop_body_step_some {σ : Type} (E : Ext σ) (K : Consts) (O : Options) (fuel : Nat)
    (s r : Run σ) (hO : O.opt_step_instruction ≠ 0) (h : loop_body E K O fuel s = some r) :
    ∃ n, n < fuel ∧ retires_after E n s.w ∧
      r = after_ticks E K (E.mPC s.w)
        (Nat.iterate (tick_once E) (n + 1) { s with g := { s.g with ticked := false } }) := by
  have h0 := h
  simp only [loop_body, hO, ne_eq, not_false_eq_true, if_true] at h0
  split at h0
  · cases h0
  · rename_i r1 h1
    obtain ⟨n, hn, hr⟩ := tick_until_retired_some E _ _ _ h1
    refine ⟨n, hn, hr, ?_⟩
    have h2 := loop_body_step E K O fuel s hO n hr hn
    rw [h2] at h
    exact (Option.some.inj h).symm

/-- The events one turn of the do-while loop adds to the trace: the calls of `tick`, one
without `opt_step_instruction` and with it as many as the instruction takes, and behind
them the call of `emu_exception` if the program counter is at the breakpoint. -/
theorem loop_body_trace {σ : Type} (E : Ext σ) (K : Consts) (O : Options) (fuel : Nat)
    (s r : Run σ) (h : loop_body E K O fuel s = some r) :
    ∃ n, (O.opt_step_instruction = 0 → n = 0) ∧
      (O.opt_step_instruction ≠ 0 → n < fuel ∧ retires_after E n s.w) ∧
      r.tr = s.tr ++ tick_events E (n + 1) s.w ++
        (if E.mPC (tick_worlds E (n + 1) s.w) = s.g.breakpoint then [Event.except (-1)]
         else []) ∧
      r.targetclocks = u32 ((s.targetclocks : Int) - ((n : Int) + 1)) ∧
      r.g.ticked = (E.tick (tick_worlds E n s.w)).2 ∧
      r.w = turn_world E s.g.breakpoint n s.w := by
  by_cases hO : O.opt_step_instruction = 0
  · rw [loop_body_plain E K O fuel s hO] at h
    have hr := (Option.some.inj h).symm
    subst hr
    obtain ⟨h1, h2, h3⟩ := after_ticks_tr E K (E.mPC s.w) (tick_once E s)
    refine ⟨0, fun _ => rfl, fun hc => absurd hO hc, ?_, ?_, ?_, ?_⟩
    · rw [h1]; rfl
    · rw [h2]; rfl
    · rw [h3]; rfl
    · rw [after_ticks_world]; rfl
  · obtain ⟨n, hn, hr, he⟩ := loop_body_step_some E K O fuel s r hO h
    subst he
    obtain ⟨h1, h2, h3⟩ := after_ticks_tr E K (E.mPC s.w)
      (Nat.iterate (tick_once E) (n + 1) { s with g := { s.g with ticked := false } })
    obtain ⟨i1, i2, i3, -⟩ := iterate_tick_tr E (n + 1)
      { s with g := { s.g with ticked := false } }
    obtain ⟨j1, j2⟩ := iterate_tick_clocks E n { s with g := { s.g with ticked := false } }
    refine ⟨n, fun hc => absurd hc hO, fun _ => ⟨hn, hr⟩, ?_, ?_, ?_, ?_⟩
    · rw [h1, i1, i2, i3.2.2.1]
    · rw [h2, j1]
    · rw [h3, j2]
    · rw [after_ticks_world, i2, i3.2.2.1]
      rfl

/-! ## Invariants of the loops -/

theorem pacing_loop_invariant {σ : Type} (E : Ext σ) (K : Consts) (O : Options)
    (targettime : Int) (P : Run σ → Prop)
    (hstep : ∀ (fuel : Nat) (s r : Run σ), P s → loop_body E K O fuel s = some r →
      P { r with w := (getTick E r.w).1, tr := r.tr ++ [Event.clock (getTick E r.w).2] }) :
    ∀ (fuel : Nat) (s r : Run σ), P s → pacing_loop E K O targettime fuel s = some r →
      P r := by
  intro fuel
  induction fuel with
  | zero => intro s r _ h; simp [pacing_loop] at h
  | succ n ih =>
    intro s r hP h
    simp only [pacing_loop] at h
    split at h
    · cases h
    · rename_i s1 h1
      have h2 := hstep _ s s1 hP h1
      split_ifs at h with hc
      · exact ih _ _ h2 h
      · cases h
        exact h2

theorem idle_wait_invariant {σ : Type} (E : Ext σ) (targettime : Int) (P : Run σ → Prop)
    (hclock : ∀ s : Run σ, P s →
      P { s with w := (getTick E s.w).1, tr := s.tr ++ [Event.clock (getTick E s.w).2] })
    (hsleep : ∀ s : Run σ, P s →
      P { s with w := emu_sleep E s.w 1, tr := s.tr ++ [Event.sleep 1] }) :
    ∀ (fuel : Nat) (s r : Run σ), P s → idle_wait E targettime fuel s = some r → P r := by
  intro fuel
  induction fuel with
  | zero => intro s r _ h; simp [idle_wait] at h
  | succ n ih =>
    intro s r hP h
    simp only [idle_wait] at h
    have h2 := hclock s hP
    split_ifs at h with hc
    · exact ih _ _ (hsleep _ h2) h
    · cases h
      exact h2

/-! ## The breakpoint trigger -/

theorem break_hit_except (O : Options) (X : Int) (c : Int) :
    break_hit O X (Event.except c) = false := by
  unfold break_hit
  split_ifs <;> rfl

theorem break_hit_clock (O : Options) (X : Int) (t : Int) :
    break_hit O X (Event.clock t) = false := by
  unfold break_hit
  split_ifs <;> rfl

theorem break_hit_sleep (O : Options) (X : Int) (t : Int) :
    break_hit O X (Event.sleep t) = false := by
  unfold break_hit
  split_ifs <;> rfl

theorem count_with_breaks (hit : Event → Bool) (hx : ∀ c, hit (Event.except c) = false)
    (tr : List Event) :
    (with_breaks hit tr).countP is_except = tr.countP hit := by
  induction tr with
  | nil => rfl
  | cons e rest ih =>
    cases e with
    | except c => simp [with_breaks, ih, hx]
    | tick a b c =>
      by_cases h : hit (Event.tick a b c) = true
      · simp [with_breaks, h, ih, is_except, List.countP_cons]
      · simp [with_breaks, h, ih, is_except, List.countP_cons]
    | clock t =>
      by_cases h : hit (Event.clock t) = true
      · simp [with_breaks, h, ih, is_except, List.countP_cons]
      · simp [with_breaks, h, ih, is_except, List.countP_cons]
    | sleep t =>
      by_cases h : hit (Event.sleep t) = true
      · simp [with_breaks, h, ih, is_except, List.countP_cons]
      · simp [with_breaks, h, ih, is_except, List.countP_cons]

theorem with_breaks_idle_tick (X : Int) (a c : Int) (rest : List Event) :
    with_breaks (retire_at X) (Event.tick a false c :: rest) =
      Event.tick a false c :: with_breaks (retire_at X) rest := by
  simp [with_breaks, retire_at]

theorem with_breaks_retiring {σ : Type} (E : Ext σ) (X : Int) :
    ∀ (n : Nat) (w : σ), retires_after E n w →
      with_breaks (retire_at X) (tick_events E (n + 1) w) =
        tick_events E (n + 1) w ++
          (if E.mPC (tick_worlds E (n + 1) w) = X then [Event.except (-1)] else []) := by
  intro n
  induction n with
  | zero =>
    intro w h
    have h' : (E.tick w).2 = true := h
    show with_breaks (retire_at X)
      [Event.tick (E.mPC w) (E.tick w).2 (E.mPC (tick_world E w))] = _
    rw [h']
    show _ = [Event.tick (E.mPC w) (E.tick w).2 (E.mPC (tick_world E w))] ++
      (if E.mPC (tick_world E w) = X then [Event.except (-1)] else [])
    rw [h']
    by_cases hx : E.mPC (tick_world E w) = X
    · simp [with_breaks, retire_at, hx]
    · simp [with_breaks, retire_at, hx]
  | succ n ih =>
    intro w h
    have h1 : (E.tick w).2 = false := h.1
    have h2 := ih (tick_world E w) h.2
    show with_breaks (retire_at X)
      (Event.tick (E.mPC w) (E.tick w).2 (E.mPC (tick_world E w)) ::
        tick_events E (n + 1) (tick_world E w)) =
      Event.tick (E.mPC w) (E.tick w).2 (E.mPC (tick_world E w)) ::
        tick_events E (n + 1) (tick_world E w) ++
      (if E.mPC (tick_worlds E (n + 1) (tick_world E w)) = X then [Event.except (-1)] else [])
    rw [h1, with_breaks_idle_tick, h2]
    rfl

theorem with_breaks_body {σ : Type} (E : Ext σ) (O : Options) (X : Int) (n : Nat) (w : σ)
    (h0 : O.opt_step_instruction = 0 → n = 0)
    (h1 : O.opt_step_instruction ≠ 0 → retires_after E n w) :
    with_breaks (break_hit O X)
      (tick_events E (n + 1) w ++
        (if E.mPC (tick_worlds E (n + 1) w) = X then [Event.except (-1)] else [])) =
      tick_events E (n + 1) w ++
        (if E.mPC (tick_worlds E (n + 1) w) = X then [Event.except (-1)] else []) := by
  have hx : with_breaks (break_hit O X)
      (if E.mPC (tick_worlds E (n + 1) w) = X then [Event.except (-1)] else []) = [] := by
    split_ifs <;> rfl
  rw [with_breaks_append, hx, List.append_nil]
  by_cases hO : O.opt_step_instruction = 0
  · have hn := h0 hO
    subst hn
    have hb : break_hit O X = tick_at X := by simp [break_hit, hO]
    rw [hb]
    show with_breaks (tick_at X)
      [Event.tick (E.mPC w) (E.tick w).2 (E.mPC (tick_world E w))] =
      [Event.tick (E.mPC w) (E.tick w).2 (E.mPC (tick_world E w))] ++
        (if E.mPC (tick_world E w) = X then [Event.except (-1)] else [])
    by_cases hc : E.mPC (tick_world E w) = X
    · simp [with_breaks, tick_at, hc]
    · simp [with_breaks, tick_at, hc]
  · have hb : break_hit O X = retire_at X := by simp [break_hit, hO]
    rw [hb]
    exact with_breaks_retiring E X n w (h1 hO)

theorem pacing_breaks {σ : Type} (E : Ext σ) (K : Consts) (O : Options) (fuel : Nat)
    (ch : Int) (g : Globals) (w : σ) (r : Run σ) (h : pacing E K O fuel ch g w = some r) :
    with_breaks (break_hit O g.breakpoint) r.tr = r.tr := by
  have key : r.g.breakpoint = g.breakpoint ∧
      with_breaks (break_hit O g.breakpoint) r.tr = r.tr := by
    unfold pacing at h
    simp only [] at h
    split_ifs at h with hc
    · split at h
      · cases h
      · rename_i s1 h1
        have hloop := pacing_loop_invariant E K O _
          (fun s => s.g.breakpoint = g.breakpoint ∧
            with_breaks (break_hit O g.breakpoint) s.tr = s.tr)
          (by
            intro fuel s r ⟨hb, hw⟩ hbody
            obtain ⟨n, h0, h1, htr, -, -⟩ := loop_body_trace E K O fuel s r hbody
            refine ⟨(loop_body_controls E K O fuel s r hbody).2.2.1.trans hb, ?_⟩
            have e1 : with_breaks (break_hit O g.breakpoint) r.tr = r.tr := by
              rw [htr, hb, List.append_assoc, with_breaks_append, hw,
                with_breaks_body E O g.breakpoint n s.w h0 (fun hc => (h1 hc).2)]
            show with_breaks (break_hit O g.breakpoint) (r.tr ++ [Event.clock _]) = _
            rw [with_breaks_append, e1]
            simp [with_breaks, break_hit_clock])
          _ _ _ ⟨rfl, by simp [with_breaks, break_hit_clock]⟩ h1
        exact idle_wait_invariant E _
          (fun s => s.g.breakpoint = g.breakpoint ∧
            with_breaks (break_hit O g.breakpoint) s.tr = s.tr)
          (by
            intro s ⟨hb, hw⟩
            refine ⟨hb, ?_⟩
            show with_breaks (break_hit O g.breakpoint) (s.tr ++ [Event.clock _]) = _
            rw [with_breaks_append, hw]
            simp [with_breaks, break_hit_clock])
          (by
            intro s ⟨hb, hw⟩
            refine ⟨hb, ?_⟩
            show with_breaks (break_hit O g.breakpoint) (s.tr ++ [Event.sleep 1]) = _
            rw [with_breaks_append, hw]
            simp [with_breaks, break_hit_sleep])
          _ _ _ hloop h
    · cases h
      exact ⟨rfl, rfl⟩
  exact key.2

/-- C3, amended: the breakpoint test is made once per turn of the do-while loop, behind
the ticks of that turn and whether or not an instruction retired.  In the trace of a
pacing block the calls of `emu_exception` all carry the code -1 and stand right behind
the calls of `tick` that end a turn with the program counter at the breakpoint, one
behind each: with `opt_step_instruction` these are the retirements that land on the
breakpoint, without it they are all the calls of `tick`, retiring or not, after which the
program counter is at the breakpoint.  There is none while the breakpoint is -1 and the
program counter is never negative. -/
theorem breakpoint_trigger {σ : Type} (E : Ext σ) (K : Consts) (O : Options) (fuel : Nat)
    (ch : Int) (g : Globals) (w : σ) (r : Run σ) (h : pacing E K O fuel ch g w = some r) :
    with_breaks (break_hit O g.breakpoint) r.tr = r.tr ∧
    (O.opt_step_instruction ≠ 0 →
      r.tr.countP is_except = r.tr.countP (retire_at g.breakpoint)) ∧
    (O.opt_step_instruction = 0 →
      r.tr.countP is_except = r.tr.countP (tick_at g.breakpoint)) ∧
    (g.breakpoint = -1 →
      (∀ (pb : Int) (rt : Bool) (pa : Int), Event.tick pb rt pa ∈ r.tr → 0 ≤ pa) →
      r.tr.countP is_except = 0) := by
  have hw := pacing_breaks E K O fuel ch g w r h
  have hc : r.tr.countP is_except = r.tr.countP (break_hit O g.breakpoint) := by
    have := count_with_breaks (break_hit O g.breakpoint) (break_hit_except O g.breakpoint) r.tr
    rw [hw] at this
    exact this
  refine ⟨hw, ?_, ?_, ?_⟩
  · intro hO
    rw [hc]
    simp [break_hit, hO]
  · intro hO
    rw [hc]
    simp [break_hit, hO]
  · intro hb hpc
    rw [hc, List.countP_eq_zero]
    intro e he
    cases e with
    | tick pb rt pa =>
      have := hpc pb rt pa he
      unfold break_hit
      split_ifs <;> simp [retire_at, tick_at, hb] <;> omega
    | except c => simp [break_hit_except]
    | clock t => simp [break_hit_clock]
    | sleep t => simp [break_hit_sleep]

theorem breakpoint_trigger_witness :
    ∃ r : Run Toy,
      pacing toyExt toyK toyO 3 32 { init_globals toyK with breakpoint := 1 } toy0 = some r ∧
      with_breaks (break_hit toyO 1) r.tr = r.tr :=
  ⟨_, rfl, (breakpoint_trigger toyExt toyK toyO 3 32
    { init_globals toyK with breakpoint := 1 } toy0 _ rfl).1⟩

/-- C3, as stated, fails without `opt_step_instruction`: in the toy world, with the
breakpoint at 5 and the program counter resting at 5 in the middle of an instruction of
two cycles, the turn of the space key makes one call of `tick`, which retires nothing,
and calls `emu_exception`. -/
theorem breakpoint_fires_without_retirement :
    (pacing toyExt toyK toyO 3 32 { init_globals toyK with breakpoint := 5 }
      { toy0 with pc := 5, wait := 1 }).map
      (fun r => (r.tr, r.tr.countP is_except, r.tr.countP is_retire)) =
      some ([Event.clock 5, Event.tick 5 false 5, Event.except (-1), Event.clock 5,
        Event.clock 5], 1, 0) := by
  decide

/-! ## The program counter in a history entry -/

theorem after_ticks_pushed {σ : Type} (E : Ext σ) (K : Consts) (old_pc : Int) (s : Run σ)
    (ht : s.g.ticked = true) :
    ∃ (g0 : Globals) (w0 : σ),
      (after_ticks E K old_pc s).g =
        history_push K g0 (E.mSFR w0) (E.mLowerData w0) old_pc := by
  unfold after_ticks
  simp only []
  split_ifs <;> exact ⟨_, _, rfl⟩

theorem loop_body_after {σ : Type} (E : Ext σ) (K : Consts) (O : Options) (fuel : Nat)
    (s r : Run σ) (h : loop_body E K O fuel s = some r) :
    ∃ r1 : Run σ, r = after_ticks E K (E.mPC s.w) r1 ∧ r1.g.history = s.g.history ∧
      r1.g.historyline = s.g.historyline ∧ r1.recs = s.recs := by
  by_cases hO : O.opt_step_instruction = 0
  · rw [loop_body_plain E K O fuel s hO] at h
    exact ⟨_, (Option.some.inj h).symm, rfl, rfl, rfl⟩
  · obtain ⟨n, -, -, he⟩ := loop_body_step_some E K O fuel s r hO h
    obtain ⟨-, -, -, i4, i5, -, i7⟩ := iterate_tick_tr E (n + 1)
      { s with g := { s.g with ticked := false } }
    exact ⟨_, he, i4, i5, i7⟩

theorem tick_events_last {σ : Type} (E : Ext σ) :
    ∀ (n : Nat) (w : σ),
      tick_events E (n + 1) w = tick_events E n w ++ [tick_event E (tick_worlds E n w)] := by
  intro n
  induction n with
  | zero => intro w; rfl
  | succ n ih =>
    intro w
    show tick_event E w :: tick_events E (n + 1) (tick_world E w) = _
    rw [ih (tick_world E w)]
    rfl

theorem retires_after_idle {σ : Type} (E : Ext σ) :
    ∀ (n : Nat) (w : σ), retires_after E n w →
      tick_results (tick_events E n w) = List.replicate n false := by
  intro n w h
  have h1 := retires_after_results E n w h
  rw [tick_events_last, tick_results_append] at h1
  have h2 : tick_results [tick_event E (tick_worlds E n w)] = [true] := by
    simp [tick_event, tick_results, retires_after_last E n w h]
  rw [h2] at h1
  exact List.append_cancel_right h1

theorem tick_worlds_pc {σ : Type} (E : Ext σ) :
    ∀ (n : Nat) (w : σ),
      (∀ j, j < n → E.mPC (tick_worlds E (j + 1) w) = E.mPC (tick_worlds E j w)) →
      E.mPC (tick_worlds E n w) = E.mPC w := by
  intro n
  induction n with
  | zero => intro w _; rfl
  | succ n ih =>
    intro w h
    have h0 : E.mPC (tick_world E w) = E.mPC w := h 0 (by omega)
    have h1 := ih (tick_world E w) (fun j hj => h (j + 1) (by omega))
    show E.mPC (tick_worlds E n (tick_world E w)) = _
    rw [h1, h0]

/-- C2, amended: the program counter of a history entry is the one sampled at the top of
the turn of the do-while loop in which the instruction retired.  After a turn that
retired an instruction, the `sizeof (int)` bytes at offset 128 + 64 of the most recent
entry are the bytes of `old_pc`, the program counter read before the first call of `tick`
of that turn.  Without `opt_step_instruction` that call is the only one of the turn, the
one that returned true.  With `opt_step_instruction` the call that returned true is the
last of the `n + 1` calls of the turn, and the program counter read right before it is
the stored one provided the `n` calls before it left the program counter where it was. -/
theorem history_pc_entry {σ : Type} (E : Ext σ) (K : Consts) (O : Options) (fuel : Nat)
    (s r : Run σ) (h : loop_body E K O fuel s = some r) (ht : r.g.ticked = true) :
    (∀ o : Int, 0 ≤ o → o < (K.sizeof_int : Int) →
      slot K r.g.history r.g.historyline (128 + 64 + o) = K.int_bytes (E.mPC s.w) o) ∧
    (∃ (n : Nat) (pc_after : Int) (rest : List Event),
      r.tr = s.tr ++ tick_events E n s.w ++
        Event.tick (E.mPC (tick_worlds E n s.w)) true pc_after :: rest ∧
      tick_results (tick_events E n s.w) = List.replicate n false ∧
      tick_results rest = [] ∧
      (O.opt_step_instruction = 0 → n = 0) ∧
      ((∀ j, j < n → E.mPC (tick_worlds E (j + 1) s.w) = E.mPC (tick_worlds E j s.w)) →
        E.mPC (tick_worlds E n s.w) = E.mPC s.w)) := by
  constructor
  · obtain ⟨r1, hr1, -⟩ := loop_body_after E K O fuel s r h
    have ht1 : r1.g.ticked = true := by
      rw [← (after_ticks_tr E K (E.mPC s.w) r1).2.2, ← hr1]
      exact ht
    obtain ⟨g0, w0, hg⟩ := after_ticks_pushed E K (E.mPC s.w) r1 ht1
    intro o ho0 ho1
    rw [hr1, hg]
    have hs := push_slot_same K g0 ⟨E.mSFR w0, E.mLowerData w0, E.mPC s.w⟩ (128 + 64 + o)
      (by omega) (by omega)
    rw [hs]
    unfold entry_byte
    simp only []
    rw [if_neg (by omega), if_neg (by omega)]
    congr 1
    omega
  · obtain ⟨n, h0, h1, htr, -, htk, -⟩ := loop_body_trace E K O fuel s r h
    rw [ht] at htk
    have hret : retires_after E n s.w := by
      by_cases hO : O.opt_step_instruction = 0
      · have hn := h0 hO
        subst hn
        exact htk.symm
      · exact (h1 hO).2
    refine ⟨n, E.mPC (tick_world E (tick_worlds E n s.w)),
      (if E.mPC (tick_worlds E (n + 1) s.w) = s.g.breakpoint then [Event.except (-1)]
       else []), ?_, retires_after_idle E n s.w hret, ?_, h0, tick_worlds_pc E n s.w⟩
    · rw [htr, tick_events_last]
      have e : tick_event E (tick_worlds E n s.w) =
          Event.tick (E.mPC (tick_worlds E n s.w)) true
            (E.mPC (tick_world E (tick_worlds E n s.w))) := by
        unfold tick_event
        rw [← htk]
      rw [e]
      simp
    · split_ifs <;> rfl

theorem history_pc_entry_witness :
    ∃ r : Run Toy,
      loop_body toyExt toyK toyO 1
        { g := init_globals toyK, w := toy0, targetclocks := 1, tr := [], recs := [] } =
        some r ∧
      ∀ o : Int, 0 ≤ o → o < (toyK.sizeof_int : Int) →
        slot toyK r.g.history r.g.historyline (128 + 64 + o) =
          toyK.int_bytes (toyExt.mPC toy0) o :=
  ⟨_, rfl, (history_pc_entry toyExt toyK toyO 1
    { g := init_globals toyK, w := toy0, targetclocks := 1, tr := [], recs := [] } _ rfl
    rfl).1⟩

/-- C2, as stated, fails with `opt_step_instruction`: in the toy world, with an
instruction of two cycles whose first cycle moves the program counter from 0 to 1, the
turn of the space key calls `tick` at program counter 0 (false) and at program counter 1
(true), and the most recent history entry holds the bytes of 0, not those of 1. -/
theorem history_pc_not_before_retiring_tick :
    (frame toyExt toyK { toyO with opt_step_instruction := 1 } 5 32 (init_globals toyK)
      { toy0 with wait := 1, drift := 1 }).map
      (fun r => (r.tr, (List.range 4).map
        (fun o => slot toyK r.g.history r.g.historyline (128 + 64 + (o : Int))))) =
      some ([Event.clock 5, Event.tick 0 false 1, Event.tick 1 true 2, Event.clock 5,
        Event.clock 5], [0, 0, 0, 0]) ∧
    (List.range 4).map (fun o => toyK.int_bytes 1 (o : Int)) = [1, 0, 0, 0] := by
  decide

theorem retires_after_not {σ : Type} (E : Ext σ) :
    ∀ (n m : Nat) (w : σ), retires_after E n w → m < n →
      (E.tick (tick_worlds E m w)).2 = false := by
  intro n
  induction n with
  | zero => intro m w _ hm; omega
  | succ n ih =>
    intro m w h hm
    cases m with
    | zero => exact h.1
    | succ m => exact ih m (tick_world E w) h.2 (by omega)

theorem retires_after_unique {σ : Type} (E : Ext σ) :
    ∀ (m n : Nat) (w : σ), retires_after E m w → retires_after E n w → m = n := by
  intro m n w hm hn
  by_contra hne
  rcases Nat.lt_or_gt_of_ne hne with hlt | hlt
  · have c1 := retires_after_last E m w hm
    have c2 := retires_after_not E n m w hn hlt
    rw [c1] at c2
    cases c2
  · have c1 := retires_after_last E n w hn
    have c2 := retires_after_not E m n w hm hlt
    rw [c1] at c2
    cases c2

/-! ## The turn of the space key -/

theorem switched_space {σ : Type} (E : Ext σ) (K : Consts) (g : Globals) (w : σ) :
    (switched E K 32 g w).1.runmode = 0 := by
  unfold switched
  simp only []
  split_ifs <;> simp [key_switch]

theorem target_init_stopped (speed hz now : Int) : target_init speed 0 hz now = (now, 1) := by
  simp [target_init]

theorem idle_wait_done {σ : Type} (E : Ext σ) (targettime : Int) (fuel : Nat) (s : Run σ)
    (h : targettime ≤ (getTick E s.w).2) :
    idle_wait E targettime (fuel + 1) s =
      some { s with w := (getTick E s.w).1, tr := s.tr ++ [Event.clock (getTick E s.w).2] } := by
  simp only [idle_wait]
  rw [if_neg (by omega)]

theorem pacing_loop_once {σ : Type} (E : Ext σ) (K : Consts) (O : Options)
    (targettime : Int) (fuel : Nat) (s r : Run σ)
    (hb : loop_body E K O (fuel + 1) s = some r)
    (h : targettime ≤ (getTick E r.w).2 ∨ r.targetclocks = 0) :
    pacing_loop E K O targettime (fuel + 1) s =
      some { r with w := (getTick E r.w).1, tr := r.tr ++ [Event.clock (getTick E r.w).2] } := by
  simp only [pacing_loop, hb]
  rw [if_neg]
  intro hc
  rcases h with h | h
  · omega
  · have := hc.2
    simp only [h] at this
    omega

theorem tick_results_except (c : Prop) [Decidable c] :
    tick_results (if c then [Event.except (-1)] else []) = [] := by
  split_ifs <;> rfl

/-- The turn of the space key, once the ticks of its one turn of the do-while loop are
known: the frame returns and its trace holds these ticks and no others. -/
theorem step_frame_of_body {σ : Type} (E : Ext σ) (K : Consts) (O : Options) (fuel : Nat)
    (g : Globals) (w : σ) (n : Nat)
    (h0 : O.opt_step_instruction = 0 → n = 0)
    (h1 : O.opt_step_instruction ≠ 0 →
      n < fuel + 1 ∧ retires_after E n (first_reading E K 32 g w).1)
    (hc1 : O.opt_step_instruction ≠ 0 →
      (first_reading E K 32 g w).2 ≤ (second_reading E K 32 g w n).2)
    (hc2 : (first_reading E K 32 g w).2 ≤ (third_reading E K 32 g w n).2) :
    ∃ r, frame E K O (fuel + 1) 32 g w = some r ∧
      tick_results r.tr = tick_results (tick_events E (n + 1) (first_reading E K 32 g w).1) := by
  have hbody : ∃ r1, loop_body E K O (fuel + 1)
      { g := (switched E K 32 g w).1, w := (first_reading E K 32 g w).1,
        targetclocks := 1, tr := [Event.clock (first_reading E K 32 g w).2], recs := [] } =
      some r1 := by
    by_cases hO : O.opt_step_instruction = 0
    · exact ⟨_, loop_body_plain E K O _ _ hO⟩
    · exact ⟨_, loop_body_step E K O _ _ hO n (h1 hO).2 (h1 hO).1⟩
  obtain ⟨r1, hr1⟩ := hbody
  obtain ⟨m, m0, m1, mtr, mtc, -, mw⟩ := loop_body_trace E K O _ _ r1 hr1
  have hmn : m = n := by
    by_cases hO : O.opt_step_instruction = 0
    · rw [m0 hO, h0 hO]
    · exact retires_after_unique E m n _ (m1 hO).2 (h1 hO).2
  subst hmn
  have hw1 : getTick E r1.w = second_reading E K 32 g w m := by
    rw [mw]; rfl
  have hstop : (first_reading E K 32 g w).2 ≤ (getTick E r1.w).2 ∨ r1.targetclocks = 0 := by
    by_cases hO : O.opt_step_instruction = 0
    · right
      rw [mtc, m0 hO]
      rfl
    · left
      rw [hw1]
      exact hc1 hO
  have hloop := pacing_loop_once E K O (first_reading E K 32 g w).2 fuel _ r1 hr1 hstop
  have hidle := idle_wait_done E (first_reading E K 32 g w).2 fuel
    { r1 with w := (getTick E r1.w).1, tr := r1.tr ++ [Event.clock (getTick E r1.w).2] }
    (by
      show _ ≤ (getTick E (getTick E r1.w).1).2
      rw [hw1]
      exact hc2)
  obtain ⟨R, hR, hRtr⟩ : ∃ R : Run σ,
      idle_wait E (first_reading E K 32 g w).2 (fuel + 1)
        { r1 with w := (getTick E r1.w).1, tr := r1.tr ++ [Event.clock (getTick E r1.w).2] } =
        some R ∧
      ∃ c1 c2, R.tr = r1.tr ++ [Event.clock c1] ++ [Event.clock c2] :=
    ⟨_, hidle, _, _, rfl⟩
  obtain ⟨c1, c2, hRtr⟩ := hRtr
  have hp : pacing E K O (fuel + 1) 32 (switched E K 32 g w).1 (switched E K 32 g w).2 =
      some R := by
    unfold pacing
    simp only [true_or, if_true, switched_space, target_init_stopped]
    exact (by rw [show getTick E (switched E K 32 g w).2 = first_reading E K 32 g w from rfl,
      hloop]; exact hR)
  refine ⟨{ R with w := E.view_update R.g.view R.w }, ?_, ?_⟩
  · unfold frame
    simp only [hp]
  · have hh : ∀ c, tick_results [Event.clock c] = [] := fun _ => rfl
    show tick_results R.tr = _
    rw [hRtr, mtr]
    simp only [hh, tick_results_append, tick_results_except, List.append_nil,
      List.nil_append]

/-- C7, amended: the turn of the space key, at every speed and in every prior run mode.
With `opt_step_instruction`, if `tick` returns true at its call number `n + 1` and the
two later clock readings of the turn are not before the first, the turn calls `tick`
until it returns true and then no more, so that one instruction retires.  Without
`opt_step_instruction`, if the last clock reading is not before the first, the turn makes
one call of `tick` and no more, whatever that call returns. -/
theorem step_key_frame {σ : Type} (E : Ext σ) (K : Consts) (O : Options) (fuel n : Nat)
    (g : Globals) (w : σ) :
    (O.opt_step_instruction ≠ 0 →
      retires_after E n (first_reading E K 32 g w).1 → n < fuel →
      (first_reading E K 32 g w).2 ≤ (second_reading E K 32 g w n).2 →
      (first_reading E K 32 g w).2 ≤ (third_reading E K 32 g w n).2 →
      ∃ r, frame E K O fuel 32 g w = some r ∧
        tick_results r.tr = List.replicate n false ++ [true]) ∧
    (O.opt_step_instruction = 0 → 0 < fuel →
      (first_reading E K 32 g w).2 ≤ (third_reading E K 32 g w 0).2 →
      ∃ r, frame E K O fuel 32 g w = some r ∧
        tick_results r.tr = [(E.tick (first_reading E K 32 g w).1).2]) := by
  constructor
  · intro hO hr hf hc1 hc2
    obtain ⟨f, rfl⟩ : ∃ f, fuel = f + 1 := ⟨fuel - 1, by omega⟩
    obtain ⟨r, h1, h2⟩ := step_frame_of_body E K O f g w n
      (fun h => absurd h hO) (fun _ => ⟨hf, hr⟩) (fun _ => hc1) hc2
    exact ⟨r, h1, by rw [h2, retires_after_results E n _ hr]⟩
  · intro hO hf hc2
    obtain ⟨f, rfl⟩ : ∃ f, fuel = f + 1 := ⟨fuel - 1, by omega⟩
    obtain ⟨r, h1, h2⟩ := step_frame_of_body E K O f g w 0
      (fun _ => rfl) (fun h => absurd hO h) (fun h => absurd hO h) hc2
    exact ⟨r, h1, by rw [h2]; rfl⟩

theorem step_key_frame_witness :
    ∃ r, frame toyExt toyK { toyO with opt_step_instruction := 1 } 3 32 (init_globals toyK)
        { toy0 with wait := 1, pace := 1 } = some r ∧
      tick_results r.tr = List.replicate 1 false ++ [true] :=
  (step_key_frame toyExt toyK { toyO with opt_step_instruction := 1 } 3 1 (init_globals toyK)
    { toy0 with wait := 1, pace := 1 }).1
    (by decide) ⟨rfl, rfl⟩ (by decide) (by decide) (by decide)

/-- C7, as stated, fails without `opt_step_instruction`: in the toy world, with an
instruction of two cycles, the turn of the space key makes one call of `tick`, which
returns false, and no second call, although the second call would return true. -/
theorem step_key_single_tick :
    (frame toyExt toyK toyO 3 32 (init_globals toyK) { toy0 with wait := 1 }).map
      (fun r => tick_results r.tr) = some [false] ∧
    retires_after toyExt 1 { toy0 with wait := 1 } := by
  refine ⟨by decide, rfl, rfl⟩

/-! ## The cycle budget of the do-while loop -/

theorem target_init_lt (speed runmode hz now : Int) :
    (target_init speed runmode hz now).2 < 4294967296 := by
  unfold target_init u32
  simp only []
  split_ifs <;> omega

theorem except_no_clock (c : Prop) [Decidable c] (t : Int) :
    Event.clock t ∉ (if c then [Event.except (-1)] else []) := by
  split_ifs <;> simp

theorem except_no_tick (c : Prop) [Decidable c] :
    (if c then [Event.except (-1)] else []).countP is_tick = 0 := by
  split_ifs <;> rfl

/-- Without `opt_step_instruction` and with a budget of at least one cycle the do-while
loop returns within `targetclocks` turns. -/
theorem pacing_loop_budget {σ : Type} (E : Ext σ) (K : Consts) (O : Options)
    (hO : O.opt_step_instruction = 0) (targettime : Int) :
    ∀ (fuel : Nat) (s : Run σ), 1 ≤ s.targetclocks → s.targetclocks ≤ fuel →
      s.targetclocks < 4294967296 →
      ∃ (r : Run σ) (body : List Event) (c : Int),
        pacing_loop E K O targettime fuel s = some r ∧
        r.tr = s.tr ++ body ++ [Event.clock c] ∧
        (∀ t, Event.clock t ∈ body → t < targettime) ∧
        (targettime ≤ c ∨ r.targetclocks = 0) ∧
        body.countP is_tick + r.targetclocks = s.targetclocks ∧
        1 ≤ body.countP is_tick := by
  intro fuel
  induction fuel with
  | zero => intro s h1 h2 _; omega
  | succ f ih =>
    intro s h1 h2 h3
    have hb := loop_body_plain E K O (f + 1) s hO
    obtain ⟨n, n0, -, htr, htc, -⟩ := loop_body_trace E K O (f + 1) s _ hb
    have hn := n0 hO
    subst hn
    generalize after_ticks E K (E.mPC s.w) (tick_once E s) = r1 at hb htr htc
    have htc' : r1.targetclocks + 1 = s.targetclocks := by
      rw [htc]
      unfold u32
      omega
    have hev : (tick_events E (0 + 1) s.w).countP is_tick = 1 := rfl
    have hnc : ∀ t, Event.clock t ∉ tick_events E (0 + 1) s.w := by
      intro t ht
      simp [tick_events, tick_event] at ht
    by_cases hc : targettime > (getTick E r1.w).2 ∧ r1.targetclocks > 0
    · obtain ⟨r, body, c, e1, e2, e3, e4, e5, e6⟩ := ih
        { r1 with w := (getTick E r1.w).1, tr := r1.tr ++ [Event.clock (getTick E r1.w).2] }
        hc.2 (by show r1.targetclocks ≤ f; omega) (by show r1.targetclocks < _; omega)
      refine ⟨r, tick_events E (0 + 1) s.w ++
        (if E.mPC (tick_worlds E (0 + 1) s.w) = s.g.breakpoint then [Event.except (-1)]
         else []) ++ [Event.clock (getTick E r1.w).2] ++ body, c, ?_, ?_, ?_, e4, ?_, ?_⟩
      · simp only [pacing_loop, hb]
        rw [if_pos hc]
        exact e1
      · rw [e2]
        show r1.tr ++ [Event.clock (getTick E r1.w).2] ++ body ++ [Event.clock c] = _
        rw [htr]
        simp only [List.append_assoc]
      · intro t ht
        simp only [List.mem_append, List.mem_singleton] at ht
        rcases ht with ((ht | ht) | ht) | ht
        · exact absurd ht (hnc t)
        · exact absurd ht (except_no_clock _ t)
        · cases ht
          exact hc.1
        · exact e3 t ht
      · have e5' : body.countP is_tick + r.targetclocks = r1.targetclocks := e5
        simp only [List.countP_append, hev, except_no_tick]
        have : [Event.clock (getTick E r1.w).2].countP is_tick = 0 := rfl
        omega
      · simp only [List.countP_append, hev]
        omega
    · refine ⟨{ r1 with w := (getTick E r1.w).1,
                          tr := r1.tr ++ [Event.clock (getTick E r1.w).2] },
        tick_events E (0 + 1) s.w ++
        (if E.mPC (tick_worlds E (0 + 1) s.w) = s.g.breakpoint then [Event.except (-1)]
         else []), (getTick E r1.w).2, ?_, ?_, ?_, ?_, ?_, ?_⟩
      · simp only [pacing_loop, hb]
        rw [if_neg hc]
      · show r1.tr ++ [Event.clock (getTick E r1.w).2] = _
        rw [htr]
        simp only [List.append_assoc]
      · intro t ht
        simp only [List.mem_append] at ht
        rcases ht with ht | ht
        · exact absurd ht (hnc t)
        · exact absurd ht (except_no_clock _ t)
      · show targettime ≤ (getTick E r1.w).2 ∨ r1.targetclocks = 0
        by_cases h' : targettime ≤ (getTick E r1.w).2
        · exact Or.inl h'
        · right
          by_contra h''
          exact hc ⟨by omega, by omega⟩
      · show _ + r1.targetclocks = _
        simp only [List.countP_append, hev, except_no_tick]
        omega
      · simp only [List.countP_append, hev]
        omega

theorem tick_events_count {σ : Type} (E : Ext σ) :
    ∀ (n : Nat) (w : σ), (tick_events E n w).countP is_tick = n := by
  intro n
  induction n with
  | zero => intro w; rfl
  | succ n ih =>
    intro w
    show (tick_event E w :: tick_events E n (tick_world E w)).countP is_tick = n + 1
    rw [List.countP_cons, ih]
    rfl

/-- C8, amended.  Without `opt_step_instruction` and with a budget of at least one
cycle, the do-while loop of a pacing block returns; it makes at least one call of `tick`
and no more calls than the budget set up at the start, the counter `targetclocks` ends at
the budget less the number of calls and so does not wrap; every clock reading after which
the loop went on lay before the deadline `targettime`, and the reading after which it
stopped was not before `targettime` unless the budget was used up; the pacing block makes
no other call of `tick`.  With `opt_step_instruction`, a turn of the loop whose
instruction retires at call number `n + 1` makes all these `n + 1` calls, whatever is
left of the budget, and takes `n + 1` off `targetclocks` modulo 2^32. -/
theorem tick_budget {σ : Type} (E : Ext σ) (K : Consts) (O : Options) (fuel : Nat)
    (ch : Int) (g : Globals) (w : σ) (hrun : ch = 32 ∨ g.runmode ≠ 0) :
    (O.opt_step_instruction = 0 →
      1 ≤ (target_init g.speed g.runmode O.opt_clock_hz (getTick E w).2).2 →
      (target_init g.speed g.runmode O.opt_clock_hz (getTick E w).2).2 ≤ fuel →
      ∃ (r : Run σ) (body : List Event) (c : Int),
        pacing_loop E K O (target_init g.speed g.runmode O.opt_clock_hz (getTick E w).2).1
          fuel
          { g := g, w := (getTick E w).1,
            targetclocks := (target_init g.speed g.runmode O.opt_clock_hz (getTick E w).2).2,
            tr := [Event.clock (getTick E w).2], recs := [] } = some r ∧
        r.tr = Event.clock (getTick E w).2 :: (body ++ [Event.clock c]) ∧
        (∀ t, Event.clock t ∈ body →
          t < (target_init g.speed g.runmode O.opt_clock_hz (getTick E w).2).1) ∧
        ((target_init g.speed g.runmode O.opt_clock_hz (getTick E w).2).1 ≤ c ∨
          r.targetclocks = 0) ∧
        body.countP is_tick + r.targetclocks =
          (target_init g.speed g.runmode O.opt_clock_hz (getTick E w).2).2 ∧
        1 ≤ body.countP is_tick ∧
        (∀ r' : Run σ, pacing E K O fuel ch g w = some r' →
          r'.tr.countP is_tick = body.countP is_tick ∧
          r'.tr.countP is_tick ≤
            (target_init g.speed g.runmode O.opt_clock_hz (getTick E w).2).2)) ∧
    (O.opt_step_instruction ≠ 0 →
      ∀ (s : Run σ) (n : Nat), retires_after E n s.w → n < fuel →
        ∃ r : Run σ, loop_body E K O fuel s = some r ∧
          r.tr.countP is_tick = s.tr.countP is_tick + (n + 1) ∧
          r.targetclocks = u32 ((s.targetclocks : Int) - ((n : Int) + 1))) := by
  constructor
  · intro hO hb hf
    obtain ⟨r, body, c, e1, e2, e3, e4, e5, e6⟩ := pacing_loop_budget E K O hO
      (target_init g.speed g.runmode O.opt_clock_hz (getTick E w).2).1 fuel
      { g := g, w := (getTick E w).1,
        targetclocks := (target_init g.speed g.runmode O.opt_clock_hz (getTick E w).2).2,
        tr := [Event.clock (getTick E w).2], recs := [] } hb hf (target_init_lt _ _ _ _)
    have e2' : r.tr = Event.clock (getTick E w).2 :: (body ++ [Event.clock c]) := by
      rw [e2]; rfl
    refine ⟨r, body, c, e1, e2', e3, e4, e5, e6, ?_⟩
    intro r' hp
    unfold pacing at hp
    simp only [hrun, if_true, e1] at hp
    have hi := (idle_wait_controls E _ _ _ _ hp).2.2.1
    have hcount : r'.tr.countP is_tick = body.countP is_tick := by
      rw [hi, e2']
      simp [List.countP_cons, List.countP_append, is_tick]
    refine ⟨hcount, ?_⟩
    rw [hcount]
    have e5' : body.countP is_tick + r.targetclocks =
        (target_init g.speed g.runmode O.opt_clock_hz (getTick E w).2).2 := e5
    omega
  · intro hO s n hr hf
    have hb := loop_body_step E K O fuel s hO n hr hf
    obtain ⟨m, -, m1, mtr, mtc, -⟩ := loop_body_trace E K O fuel s _ hb
    have hmn : m = n := retires_after_unique E m n _ (m1 hO).2 hr
    subst hmn
    refine ⟨_, hb, ?_, mtc⟩
    rw [mtr]
    simp only [List.countP_append, tick_events_count, except_no_tick]
    omega

theorem tick_budget_witness :
    ∃ (r : Run Toy) (body : List Event) (c : Int),
      pacing_loop toyExt toyK { toyO with opt_clock_hz := 12000 }
        (target_init 0 1 12000 (getTick toyExt { toy0 with pace := 1 }).2).1 10
        { g := { init_globals toyK with speed := 0, runmode := 1 },
          w := (getTick toyExt { toy0 with pace := 1 }).1,
          targetclocks := (target_init 0 1 12000 (getTick toyExt { toy0 with pace := 1 }).2).2,
          tr := [Event.clock (getTick toyExt { toy0 with pace := 1 }).2], recs := [] } =
        some r ∧
      r.tr = Event.clock (getTick toyExt { toy0 with pace := 1 }).2 ::
        (body ++ [Event.clock c]) ∧
      body.countP is_tick + r.targetclocks =
        (target_init 0 1 12000 (getTick toyExt { toy0 with pace := 1 }).2).2 := by
  obtain ⟨r, body, c, h1, h2, -, -, h5, -⟩ :=
    (tick_budget toyExt toyK { toyO with opt_clock_hz := 12000 } 10 0
      { init_globals toyK with speed := 0, runmode := 1 } { toy0 with pace := 1 }
      (Or.inr (by decide))).1 rfl (by decide) (by decide)
  exact ⟨r, body, c, h1, h2, h5⟩

/-- C8, as stated, fails with `opt_step_instruction`: in the toy world, with an
instruction of two cycles, the turn of the space key has a budget of one cycle, makes two
calls of `tick` and leaves the counter `targetclocks` at 4294967295. -/
theorem tick_budget_overrun :
    (target_init (init_globals toyK).speed 0 toyO.opt_clock_hz 5).2 = 1 ∧
    (frame toyExt toyK { toyO with opt_step_instruction := 1 } 5 32 (init_globals toyK)
      { toy0 with wait := 1 }).map (fun r => (r.tr.countP is_tick, r.targetclocks)) =
      some (2, 4294967295) := by
  decide

/-- A budget of no cycle: without `opt_step_instruction`, running at speed 2 with a clock
of 6000 Hz, the budget set up is 0, and the one call of `tick` the toy world has time for
leaves the counter `targetclocks` at 4294967295. -/
theorem budget_zero_wraps :
    (target_init 2 1 6000 5).2 = 0 ∧
    (pacing toyExt toyK { toyO with opt_clock_hz := 6000 } 5 0
      { init_globals toyK with speed := 2, runmode := 1 } { toy0 with pace := 1 }).map
      (fun r => (r.tr.countP is_tick, r.targetclocks)) = some (1, 4294967295) := by
  decide

/-! ## The history ring in the loop of `main` -/

theorem retire_congr (K : Consts) (g h : Globals) (sfr lower : Mem) (pc : Int)
    (e1 : g.history = h.history) (e2 : g.historyline = h.historyline) :
    (retire K g sfr lower pc).history = (retire K h sfr lower pc).history ∧
    (retire K g sfr lower pc).historyline = (retire K h sfr lower pc).historyline := by
  unfold retire history_push
  simp only [e1, e2, and_self]

theorem record_all_congr (K : Consts) (snaps : List Snapshot) :
    ∀ g h : Globals, g.history = h.history → g.historyline = h.historyline →
      (record_all K g snaps).history = (record_all K h snaps).history ∧
      (record_all K g snaps).historyline = (record_all K h snaps).historyline := by
  induction snaps with
  | nil => intro g h e1 e2; exact ⟨e1, e2⟩
  | cons x rest ih =>
    intro g h e1 e2
    obtain ⟨c1, c2⟩ := retire_congr K g h x.sfr x.lower x.pc e1 e2
    exact ih _ _ c1 c2

theorem record_all_append (K : Consts) (g : Globals) (a b : List Snapshot) :
    record_all K g (a ++ b) = record_all K (record_all K g a) b := by
  simp [record_all, List.foldl_append]

theorem after_ticks_recs {σ : Type} (E : Ext σ) (K : Consts) (old_pc : Int) (s : Run σ) :
    (s.g.ticked = true →
      ∃ snap : Snapshot, (after_ticks E K old_pc s).recs = s.recs ++ [snap] ∧
        (after_ticks E K old_pc s).g = retire K s.g snap.sfr snap.lower snap.pc) ∧
    (s.g.ticked = false →
      (after_ticks E K old_pc s).recs = s.recs ∧ (after_ticks E K old_pc s).g = s.g) := by
  unfold after_ticks
  simp only []
  constructor
  · intro ht
    split_ifs <;> exact ⟨_, rfl, rfl⟩
  · intro ht
    split_ifs <;> first
      | exact ⟨rfl, rfl⟩
      | (rename_i hx; rw [show s.g.ticked = true from hx] at ht; cases ht)

theorem count_retire_results (tr : List Event) :
    tr.countP is_retire = (tick_results tr).count true := by
  induction tr with
  | nil => rfl
  | cons e rest ih =>
    cases e with
    | tick a b c => cases b <;> simp [List.countP_cons, is_retire, tick_results, ih]
    | except c => simp [List.countP_cons, is_retire, tick_results, ih]
    | clock t => simp [List.countP_cons, is_retire, tick_results, ih]
    | sleep t => simp [List.countP_cons, is_retire, tick_results, ih]

theorem loop_body_retire_count {σ : Type} (E : Ext σ) (K : Consts) (O : Options)
    (fuel : Nat) (s r : Run σ) (h : loop_body E K O fuel s = some r) :
    r.tr.countP is_retire = s.tr.countP is_retire + (if r.g.ticked then 1 else 0) := by
  obtain ⟨n, n0, n1, htr, -, htk, -⟩ := loop_body_trace E K O fuel s r h
  have hidle : tick_results (tick_events E n s.w) = List.replicate n false := by
    by_cases hO : O.opt_step_instruction = 0
    · rw [n0 hO]; rfl
    · exact retires_after_idle E n s.w (n1 hO).2
  have hx : tick_results
      (if E.mPC (tick_worlds E (n + 1) s.w) = s.g.breakpoint then [Event.except (-1)]
       else []) = [] := tick_results_except _
  rw [htr, count_retire_results, count_retire_results, tick_results_append,
    tick_results_append, tick_events_last, tick_results_append, hidle, hx, htk]
  have hl : tick_results [tick_event E (tick_worlds E n s.w)] =
      [(E.tick (tick_worlds E n s.w)).2] := rfl
  rw [hl]
  have hz : List.count true (List.replicate n false) = 0 :=
    List.count_eq_zero.mpr (fun hm => by simp [List.mem_replicate] at hm)
  cases (E.tick (tick_worlds E n s.w)).2 <;> simp [hz]

theorem loop_body_recorded {σ : Type} (E : Ext σ) (K : Consts) (O : Options) (fuel : Nat)
    (g : Globals) (s r : Run σ) (hs : recorded K g s)
    (h : loop_body E K O fuel s = some r) : recorded K g r := by
  obtain ⟨r1, hr, e1, e2, e3⟩ := loop_body_after E K O fuel s r h
  have hcount := loop_body_retire_count E K O fuel s r h
  have htk : r.g.ticked = r1.g.ticked := by
    rw [hr]; exact (after_ticks_tr E K (E.mPC s.w) r1).2.2
  obtain ⟨a1, a2⟩ := after_ticks_recs E K (E.mPC s.w) r1
  obtain ⟨s1, s2, s3⟩ := hs
  by_cases ht : r1.g.ticked = true
  · obtain ⟨snap, b1, b2⟩ := a1 ht
    rw [← hr] at b1 b2
    obtain ⟨c1, c2⟩ := retire_congr K r1.g (record_all K g s.recs) snap.sfr snap.lower
      snap.pc (e1.trans s1) (e2.trans s2)
    refine ⟨?_, ?_, ?_⟩
    · rw [b1, b2, e3, record_all_snoc]; exact c1
    · rw [b1, b2, e3, record_all_snoc]; exact c2
    · rw [hcount, htk, ht, b1, e3, ← s3]
      simp
  · have ht' : r1.g.ticked = false := by simpa using ht
    obtain ⟨b1, b2⟩ := a2 ht'
    rw [← hr] at b1 b2
    refine ⟨?_, ?_, ?_⟩
    · rw [b1, b2, e3, e1]; exact s1
    · rw [b1, b2, e3, e2]; exact s2
    · rw [hcount, htk, ht', b1, e3, ← s3]
      simp

theorem pacing_recorded {σ : Type} (E : Ext σ) (K : Consts) (O : Options) (fuel : Nat)
    (ch : Int) (g : Globals) (w : σ) (r : Run σ) (h : pacing E K O fuel ch g w = some r) :
    recorded K g r := by
  unfold pacing at h
  simp only [] at h
  split_ifs at h with hc
  · split at h
    · cases h
    · rename_i s1 h1
      have hinit : recorded K g
          { g := g, w := (getTick E w).1,
            targetclocks := (target_init g.speed g.runmode O.opt_clock_hz (getTick E w).2).2,
            tr := [Event.clock (getTick E w).2], recs := [] } := ⟨rfl, rfl, rfl⟩
      have hloop := pacing_loop_invariant E K O _ (fun s => recorded K g s)
        (by
          intro fuel s r hs hbody
          obtain ⟨b1, b2, b3⟩ := loop_body_recorded E K O fuel g s r hs hbody
          refine ⟨b1, b2, ?_⟩
          show r.recs.length = (r.tr ++ [Event.clock _]).countP is_retire
          rw [List.countP_append, b3]
          rfl)
        _ _ _ hinit h1
      exact idle_wait_invariant E _ (fun s => recorded K g s)
        (by
          intro s ⟨b1, b2, b3⟩
          refine ⟨b1, b2, ?_⟩
          show s.recs.length = (s.tr ++ [Event.clock _]).countP is_retire
          rw [List.countP_append, b3]
          rfl)
        (by
          intro s ⟨b1, b2, b3⟩
          refine ⟨b1, b2, ?_⟩
          show s.recs.length = (s.tr ++ [Event.sleep 1]).countP is_retire
          rw [List.countP_append, b3]
          rfl)
        _ _ _ hloop h
  · cases h
    exact ⟨rfl, rfl, rfl⟩

theorem ite_history {σ : Type} (c : Prop) [Decidable c] (a b : Globals × σ) (g : Globals)
    (ha : a.1.history = g.history ∧ a.1.historyline = g.historyline)
    (hb : b.1.history = g.history ∧ b.1.historyline = g.historyline) :
    (if c then a else b).1.history = g.history ∧
    (if c then a else b).1.historyline = g.historyline := by
  split_ifs <;> assumption

theorem key_switch_history {σ : Type} (E : Ext σ) (K : Consts) (ch : Int) (g : Globals)
    (w : σ) :
    (key_switch E K ch g w).1.history = g.history ∧
    (key_switch E K ch g w).1.historyline = g.historyline := by
  unfold key_switch
  repeat' (first | exact ⟨rfl, rfl⟩ | apply ite_history |
    (dsimp only; split_ifs <;> exact ⟨rfl, rfl⟩))

theorem switched_history {σ : Type} (E : Ext σ) (K : Consts) (ch : Int) (g : Globals)
    (w : σ) :
    (switched E K ch g w).1.history = g.history ∧
    (switched E K ch g w).1.historyline = g.historyline := by
  unfold switched
  simp only []
  split_ifs
  · exact key_switch_history E K ch _ _
  · exact key_switch_history E K ch _ _

theorem frame_recorded {σ : Type} (E : Ext σ) (K : Consts) (O : Options) (fuel : Nat)
    (ch : Int) (g : Globals) (w : σ) (r : Run σ) (h : frame E K O fuel ch g w = some r) :
    recorded K g r := by
  unfold frame at h
  simp only [] at h
  split at h
  · cases h
  · rename_i r1 h1
    cases h
    obtain ⟨b1, b2, b3⟩ := pacing_recorded E K O fuel ch _ _ r1 h1
    obtain ⟨c1, c2⟩ := switched_history E K ch g w
    obtain ⟨d1, d2⟩ := record_all_congr K r1.recs _ _ c1 c2
    exact ⟨b1.trans d1, b2.trans d2, b3⟩

theorem session_recorded {σ : Type} (E : Ext σ) (K : Consts) (O : Options) (fuel : Nat)
    (g : Globals) (keys : List Int) :
    ∀ s r : Run σ, recorded K g s → session E K O fuel keys s = some r → recorded K g r := by
  induction keys with
  | nil =>
    intro s r hs h
    simp only [session, Option.some.injEq] at h
    rw [← h]
    exact hs
  | cons ch rest ih =>
    intro s r hs h
    simp only [session] at h
    split at h
    · cases h
    · rename_i r1 h1
      refine ih _ r ?_ h
      obtain ⟨b1, b2, b3⟩ := frame_recorded E K O fuel ch s.g s.w r1 h1
      obtain ⟨s1, s2, s3⟩ := hs
      obtain ⟨d1, d2⟩ := record_all_congr K r1.recs _ _ s1 s2
      refine ⟨?_, ?_, ?_⟩
      · show r1.g.history = (record_all K g (s.recs ++ r1.recs)).history
        rw [record_all_append]
        exact b1.trans d1
      · show r1.g.historyline = (record_all K g (s.recs ++ r1.recs)).historyline
        rw [record_all_append]
        exact b2.trans d2
      · show (s.recs ++ r1.recs).length = (s.tr ++ r1.tr).countP is_retire
        rw [List.length_append, List.countP_append, s3, b3]

/-- C1: the write side of the history ring, in the loop of `main`.  Run the loop from the
initial globals over any keys, with any capacity `HISTORY_LINES > 0`, and let `k` be the
number of calls of `tick` that retired an instruction.  Then `k` snapshots were recorded;
the cursor `historyline` is `k` modulo the capacity and lies in `[0, HISTORY_LINES)`; the
snapshot that `i` later ones follow, `i` below the capacity, fills the slot
`(historyline - i) mod HISTORY_LINES` byte for byte; once `k` reaches the capacity every
slot is the slot of one of the last `HISTORY_LINES` snapshots, so the older ones are gone;
and no byte outside the array is ever written. -/
theorem history_ring {σ : Type} (E : Ext σ) (K : Consts) (O : Options) (fuel : Nat)
    (keys : List Int) (w : σ) (r : Run σ) (hN : 0 < K.HISTORY_LINES)
    (h : session E K O fuel keys (session_start K w) = some r) :
    r.recs.length = r.tr.countP is_retire ∧
    r.g.historyline = ((r.tr.countP is_retire : Nat) : Int) % K.HISTORY_LINES ∧
    0 ≤ r.g.historyline ∧
    r.g.historyline < K.HISTORY_LINES ∧
    (∀ (pre : List Snapshot) (s : Snapshot) (post : List Snapshot),
      r.recs = pre ++ s :: post → (post.length : Int) < K.HISTORY_LINES →
      ∀ o : Int, 0 ≤ o → o < 128 + 64 + (K.sizeof_int : Int) →
        slot K r.g.history ((r.g.historyline - (post.length : Int)) % K.HISTORY_LINES) o =
          entry_byte K s o) ∧
    (K.HISTORY_LINES ≤ ((r.tr.countP is_retire : Nat) : Int) → ∀ line : Int, 0 ≤ line →
      line < K.HISTORY_LINES →
      ∃ (pre : List Snapshot) (s : Snapshot) (post : List Snapshot),
        r.recs = pre ++ s :: post ∧ (post.length : Int) < K.HISTORY_LINES ∧
        line = (r.g.historyline - (post.length : Int)) % K.HISTORY_LINES) ∧
    (∀ a : Int, a < 0 ∨ K.HISTORY_LINES * (128 + 64 + (K.sizeof_int : Int)) ≤ a →
      r.g.history a = 0) := by
  obtain ⟨e1, e2, e3⟩ := session_recorded E K O fuel (init_globals K) keys
    (session_start K w) r ⟨rfl, rfl, rfl⟩ h
  obtain ⟨a1, a2, a3, a4, a5, a6⟩ := record_all_ring K hN r.recs
  rw [← e1, ← e2] at a4
  rw [← e2] at a1 a2 a3 a5
  rw [← e1] at a6
  rw [e3] at a1 a5
  exact ⟨e3, a1, a2, a3, a4, a5, a6⟩

theorem history_ring_witness :
    ∃ r : Run Toy,
      session toyExt toyK toyO 3 [0, 32, 32, 32, 32] (session_start toyK toy0) = some r ∧
      r.recs.length = r.tr.countP is_retire ∧
      r.g.historyline = ((r.tr.countP is_retire : Nat) : Int) % toyK.HISTORY_LINES :=
  ⟨_, rfl, (history_ring toyExt toyK toyO 3 [0, 32, 32, 32, 32] toy0 _ (by decide) rfl).1,
    (history_ring toyExt toyK toyO 3 [0, 32, 32, 32, 32] toy0 _ (by decide) rfl).2.1⟩

end Emu8051
